import Mathlib

/-!
The manifest match engine and the result renderer of scoop-search.

A shallow embedding of `main.go` (`matchingManifests`, `printResults`) together with
the library functions it calls (`strings`, `path/filepath` on Windows, `sort`,
`fastjson`), followed by theorems about them.

Conventions of the embedding.

* A Go `string` is a list of Unicode code points (`GoString`); the texts handled here
  are file names, JSON strings and the query, taken as well-formed UTF-8, so that byte
  slicing at ASCII boundaries, byte-wise comparison and substring search coincide with
  the same operations on code points.
* `strings.ToLower` maps `unicode.ToLower` over the runes.  Its ASCII part is written
  out; the lookup in the table `unicode.CaseRanges` used for the other runes is the
  parameter `tbl` of every definition that lower-cases.
* The file system is an input: a directory listing is a list of entries, each with its
  name and the outcome of reading and parsing it.
* A run that does not return (a fatal log message, `check` on an error, a run-time
  panic) is an `Abort`; functions that can abort return `Except Abort _`.
-/

namespace ScoopSearch

/-- A Go string, as the list of its code points. -/
abbrev GoString := List Char

/-! ## package strings -/

/-- The Go function `unicode.ToLower`: ASCII letters are shifted, other ASCII runes are unchanged, and
every other rune is looked up in the case table `tbl`. -/
def unicodeToLower (tbl : Char → Char) (r : Char) : Char :=
  if r.toNat ≤ 0x7F then
    if 'A'.toNat ≤ r.toNat ∧ r.toNat ≤ 'Z'.toNat then Char.ofNat (r.toNat + 32) else r
  else tbl r

/-- The Go function `strings.ToLower`. -/
def ToLower (tbl : Char → Char) (s : GoString) : GoString :=
  s.map (unicodeToLower tbl)

/-- The Go function `strings.HasPrefix`. -/
def HasPrefix : GoString → GoString → Bool
  | _, [] => true
  | [], _ :: _ => false
  | c :: s, p :: ps => c == p && HasPrefix s ps

/-- The Go function `strings.Contains s substr`: some position of `s` starts a copy of `substr`. -/
def Contains : GoString → GoString → Bool
  | [], substr => HasPrefix [] substr
  | c :: s, substr => HasPrefix (c :: s) substr || Contains s substr

/-- The Go function `strings.HasSuffix`. -/
def HasSuffix (s suffix : GoString) : Bool :=
  HasPrefix s.reverse suffix.reverse

/-- The Go function `strings.TrimSuffix`. -/
def TrimSuffix (s suffix : GoString) : GoString :=
  if HasSuffix s suffix then s.take (s.length - suffix.length) else s

/-- The comparison `a < b` of two Go strings: lexicographic on the bytes, which for
UTF-8 is lexicographic on the code points. -/
def stringLess : GoString → GoString → Bool
  | [], [] => false
  | [], _ :: _ => true
  | _ :: _, [] => false
  | a :: as, b :: bs =>
    if a.toNat < b.toNat then true
    else if b.toNat < a.toNat then false
    else stringLess as bs

/-! ## package path/filepath (Windows) -/

/-- The Go function `os.IsPathSeparator` on Windows. -/
def IsPathSeparator (c : Char) : Bool :=
  c == '\\' || c == '/'

/-- The scan `for ; n < l; n++ { if isSlash(path[n]) { break } }` of `volumeNameLen`:
the index of the first separator at or after `n`, or the length of the path. -/
def shareEnd : GoString → Nat → Nat
  | [], n => n
  | c :: rest, n => if IsPathSeparator c then n else shareEnd rest (n + 1)

/-- The outer loop `for n := 3; n < l-1; n++` of `volumeNameLen` on `\\server\share`
paths; `l` is the length of the whole path and the list is the path from index `n`. -/
def uncScan (l : Nat) : GoString → Nat → Nat
  | [], _ => 0
  | c :: rest, n =>
    if n < l - 1 then
      if IsPathSeparator c then
        match rest with
        | [] => 0
        | d :: _ =>
          if !IsPathSeparator d then
            if d == '.' then 0 else shareEnd rest (n + 1)
          else 0
      else uncScan l rest (n + 1)
    else 0

/-- The function `volumeNameLen` of `path/filepath` on Windows (as in the Go releases
up to 1.19): the length of a leading drive letter (`C:`) or of a leading
`\\server\share`. -/
def volumeNameLen (path : GoString) : Nat :=
  match path with
  | c :: d :: _ =>
    if d == ':' && (('a'.toNat ≤ c.toNat && c.toNat ≤ 'z'.toNat)
        || ('A'.toNat ≤ c.toNat && c.toNat ≤ 'Z'.toNat)) then 2
    else
      match path with
      | p0 :: p1 :: p2 :: _ =>
        if 5 ≤ path.length && IsPathSeparator p0 && IsPathSeparator p1
            && !IsPathSeparator p2 && p2 != '.' then
          uncScan path.length (path.drop 3) 3
        else 0
      | _ => 0
  | _ => 0

/-- The scan of `filepath.Ext` over the reversed path: walk back from the end until a
separator (no extension) or a dot (the extension starts there). `seen` holds the
characters already passed, in path order. -/
def extScan : GoString → GoString → GoString
  | [], _ => []
  | c :: rest, seen =>
    if IsPathSeparator c then []
    else if c == '.' then c :: seen
    else extScan rest (c :: seen)

/-- The Go function `filepath.Ext`: the suffix beginning at the final dot of the last path element. -/
def Ext (path : GoString) : GoString :=
  extScan path.reverse []

/-- Drop the trailing path separators (first loop of `filepath.Base`). -/
def stripTrailingSeparators (path : GoString) : GoString :=
  (path.reverse.dropWhile IsPathSeparator).reverse

/-- The last path element (second loop of `filepath.Base`). -/
def lastElement (path : GoString) : GoString :=
  (path.reverse.takeWhile (fun c => !IsPathSeparator c)).reverse

/-- The Go function `filepath.Base` on Windows. -/
def Base (path : GoString) : GoString :=
  if path = [] then ['.']
  else
    let p1 := stripTrailingSeparators path
    let p2 := p1.drop (volumeNameLen p1)
    let p3 := lastElement p2
    if p3 = [] then ['\\'] else p3

/-! ## package fastjson -/

/-- A parsed JSON value (`fastjson.Value`); an object keeps its members in source
order, keys unescaped. -/
inductive Value where
  | null : Value
  | object (kvs : List (GoString × Value)) : Value
  | array (a : List Value) : Value
  | string (s : GoString) : Value
  | number (raw : GoString) : Value
  | true : Value
  | false : Value

/-- The method `Object.Get` of fastjson: the value of the first member with the given key. -/
def objectGet : List (GoString × Value) → GoString → Option Value
  | [], _ => none
  | (k, v) :: rest, key => if k = key then some v else objectGet rest key

/-- The method `(*Value).Get(key)` for a key that is not a decimal number (the program uses
`"version"` and `"bin"`): `nil` for a `nil` receiver, the member of an object, and `nil`
for every other value (an array is indexed by numeric keys only). -/
def Value.Get (v : Option Value) (key : GoString) : Option Value :=
  match v with
  | some (.object kvs) => objectGet kvs key
  | _ => none

/-- The text `string(v.GetStringBytes())` on a non-nil value: the text of a JSON string and the
empty string for any other value. -/
def Value.stringBytes : Value → GoString
  | .string s => s
  | _ => []

/-- The text `string(v.GetStringBytes(key))`. -/
def Value.GetStringBytes (v : Option Value) (key : GoString) : GoString :=
  match Value.Get v key with
  | some w => w.stringBytes
  | none => []

/-! ## main.go -/

/-- The struct `match` of main.go. -/
structure Match where
  name : GoString
  version : GoString
  bin : GoString
  deriving DecidableEq, Repr

/-- The type `matchMap`: a Go map, as the list of its key/value pairs (keys distinct). -/
abbrev matchMap := List (GoString × List Match)

/-- Ways in which a run ends without returning. -/
inductive Abort where
  /-- A call of `log.Fatalln(msg)`. -/
  | fatal (msg : GoString) : Abort
  /-- Modelled from the spec: `check(err)` with a non-nil error (the helper `check` is
  not part of main.go); the spec makes every such I/O failure fatal. -/
  | checkFailed : Abort
  /-- The run-time panic `index out of range [i] with length n`. -/
  | indexOutOfRange (i n : Nat) : Abort
  deriving DecidableEq, Repr

/-- The outcome of `ioutil.ReadFile` followed by `parser.ParseBytes` for one directory
entry. `ParseBytes` returns `nil` (and an error, which the program drops) when the bytes
are not JSON. -/
inductive FileContent where
  /-- The call of `ioutil.ReadFile` returned an error. -/
  | unreadable : FileContent
  /-- The file was read; `result` is the value returned by `ParseBytes`. -/
  | read (result : Option Value) : FileContent

/-- One entry of the listing returned by `ioutil.ReadDir`. -/
structure DirEntry where
  name : GoString
  content : FileContent

/-- The constant `badManifestErrMsg`. -/
def badManifestErrMsg : GoString :=
  "Cannot parse \"bin\" attribute in a manifest. This should not happen. Please open an issue about it with steps to reproduce".toList

/-- The loop `for _, stringOrArray := range bin.GetArray()` (lines 107-118), threading
the slice `bins`. -/
def decodeArray : List Value → List GoString → Except Abort (List GoString)
  | [], bins => .ok bins
  | stringOrArray :: rest, bins =>
    match stringOrArray with
    | .string s => decodeArray rest (bins ++ [s])
    | .array stringArray =>
      match stringArray with
      | [] => .error (.indexOutOfRange 0 0)
      | [_] => .error (.indexOutOfRange 1 1)
      | s0 :: s1 :: _ => decodeArray rest (bins ++ [s0.stringBytes, s1.stringBytes])
    | _ => .error (.fatal badManifestErrMsg)

/-- The `switch bin.Type()` of lines 103-121 for a non-nil `bin`: the candidate list
`bins`. -/
def decodeBin (bin : Value) : Except Abort (List GoString) :=
  match bin with
  | .string s => .ok [s]
  | .array a => decodeArray a []
  | _ => .error (.fatal badManifestErrMsg)

/-- The loop `for _, bin := range bins` (lines 123-129): the base name of the first
candidate whose base name without extension contains the term. -/
def firstMatchingBin (tbl : Char → Char) (term : GoString) : List GoString → Option GoString
  | [] => none
  | bin :: rest =>
    let bin := Base bin
    if Contains (ToLower tbl (TrimSuffix bin (Ext bin))) term then some bin
    else firstMatchingBin tbl term rest

/-- The name `name[:len(name)-5]` recorded in a match. -/
def manifestName (name : GoString) : GoString :=
  name.take (name.length - 5)

/-- The loop `for _, file := range files` (lines 73-131), threading the slice `res`;
`term` is already lower-cased. -/
def scanFiles (tbl : Char → Char) (term : GoString) :
    List DirEntry → List Match → Except Abort (List Match)
  | [], res => .ok res
  | file :: files, res =>
    let name := file.name
    if !HasSuffix name ".json".toList then scanFiles tbl term files res
    else
      match file.content with
      | .unreadable => .error .checkFailed
      | .read result =>
        let version := Value.GetStringBytes result "version".toList
        if Contains (ToLower tbl name) term then
          scanFiles tbl term files (res ++ [⟨manifestName name, version, []⟩])
        else
          match Value.Get result "bin".toList with
          | none => scanFiles tbl term files res
          | some bin =>
            match decodeBin bin with
            | .error e => .error e
            | .ok bins =>
              match firstMatchingBin tbl term bins with
              | some b => scanFiles tbl term files (res ++ [⟨manifestName name, version, b⟩])
              | none => scanFiles tbl term files res

/-- Insertion of `x` in front of a sorted list, behind the elements smaller than it. -/
def insertStable {α : Type} (less : α → α → Bool) (x : α) : List α → List α
  | [] => [x]
  | y :: ys => if less y x then y :: insertStable less x ys else x :: y :: ys

/-- The Go function `sort.SliceStable`: the stable sort by `less`, each element inserted in front of
the sorted rest. -/
def SliceStable {α : Type} (less : α → α → Bool) : List α → List α
  | [] => []
  | x :: xs => insertStable less x (SliceStable less xs)

/-- The `less` function of line 134. -/
def lessByName (tbl : Char → Char) (a b : Match) : Bool :=
  stringLess (ToLower tbl a.name) (ToLower tbl b.name)

/-- The matches of one bucket in discovery order: `matchingManifests` up to line 131. -/
def collectMatches (tbl : Char → Char) (files : List DirEntry) (term : GoString) :
    Except Abort (List Match) :=
  scanFiles tbl (ToLower tbl term) files []

/-- The function `matchingManifests`, given the listing `files` that `ioutil.ReadDir(path)` returned. -/
def matchingManifests (tbl : Char → Char) (files : List DirEntry) (term : GoString) :
    Except Abort (List Match) :=
  match collectMatches tbl files term with
  | .error e => .error e
  | .ok res => .ok (SliceStable (lessByName tbl) res)

/-- The Go function `sort.Strings`. -/
def sortStrings (keys : List GoString) : List GoString :=
  SliceStable stringLess keys

/-- The map read `data[k]`: the zero value (an empty slice) for a missing key. -/
def mapGet (data : matchMap) (k : GoString) : List Match :=
  match data with
  | [] => []
  | (k', v) :: rest => if k' = k then v else mapGet rest k

/-- The loop `for _, m := range v` (lines 183-195), threading the builder `display`. -/
def writeMatches : List Match → GoString → GoString
  | [], display => display
  | m :: v, display =>
    let display := display ++ "    ".toList
    let display := display ++ m.name
    let display := display ++ " (".toList
    let display := display ++ m.version
    let display := display ++ ")".toList
    let display :=
      if m.bin ≠ [] then (display ++ " --> includes '".toList ++ m.bin) ++ "'".toList
      else display
    writeMatches v (display ++ "\n".toList)

/-- The loop `for _, k := range sortedKeys` (lines 175-198), threading `display` and
`anyMatches`. -/
def writeBuckets (data : matchMap) : List GoString → GoString × Bool → GoString × Bool
  | [], st => st
  | k :: keys, (display, anyMatches) =>
    let v := mapGet data k
    if v.length > 0 then
      let display := (display ++ "'".toList ++ k) ++ "' bucket:\n".toList
      let display := writeMatches v display
      writeBuckets data keys (display ++ "\n".toList, true)
    else writeBuckets data keys (display, anyMatches)

/-- The function `printResults`: the text written to standard output and the returned `anyMatches`.
(The capacity reserved with `display.Grow` does not affect either.) -/
def printResults (data : matchMap) : GoString × Bool :=
  let sortedKeys := sortStrings (data.map Prod.fst)
  let (display, anyMatches) := writeBuckets data sortedKeys ([], false)
  let display := if !anyMatches then display ++ "No matches found.".toList else display
  (display, anyMatches)

/-! ## The loop body and the manifests of a listing -/

/-- The matches that one directory entry adds to `res` (none or one), or its abort. -/
def fileStep (tbl : Char → Char) (term : GoString) (file : DirEntry) : Except Abort (List Match) :=
  scanFiles tbl term [file] []

/-- The stems of the manifests (the `.json` files) of a listing, in listing order. -/
def manifestStems (files : List DirEntry) : List GoString :=
  (files.filter (fun f => HasSuffix f.name ".json".toList)).map (fun f => manifestName f.name)

/-- The entry with its content made unreadable unless it is a manifest. -/
def hideNonManifest (f : DirEntry) : DirEntry :=
  if HasSuffix f.name ".json".toList then f else ⟨f.name, .unreadable⟩

/-! ## Shapes of the `bin` member -/

/-- The value is a JSON string. -/
def Value.isString : Value → Bool
  | .string _ => Bool.true
  | _ => Bool.false

/-- The value is a JSON array. -/
def Value.isArray : Value → Bool
  | .array _ => Bool.true
  | _ => Bool.false

/-- An element of a `bin` array that is a string or a nested array with at least two
elements. -/
def PairOrString : Value → Prop
  | .string _ => True
  | .array a => 2 ≤ a.length
  | _ => False

/-- A `bin` value that is neither a string nor an array, or an array that has, after
strings and nested arrays of two or more elements only, an element that is neither a
string nor an array. -/
def MalformedBin (bin : Value) : Prop :=
  (bin.isString = false ∧ bin.isArray = false) ∨
  ∃ pre e post, bin = .array (pre ++ e :: post) ∧ (∀ x ∈ pre, PairOrString x) ∧
    e.isString = false ∧ e.isArray = false

/-! ## The report, in the words of the specification -/

/-- The line of one match: four blanks, the name, the version in parentheses, the
executable annotation when `bin` is set, and a line feed. -/
def matchLine (m : Match) : GoString :=
  "    ".toList ++ m.name ++ " (".toList ++ m.version ++ ")".toList ++
    (if m.bin ≠ [] then " --> includes '".toList ++ m.bin ++ "'".toList else []) ++ "\n".toList

/-- The section of one bucket: the header, one line per match in list order, and a
blank line. -/
def bucketSection (e : GoString × List Match) : GoString :=
  "'".toList ++ e.1 ++ "' bucket:\n".toList ++ (e.2.map matchLine).flatten ++ "\n".toList

/-- The `text` is the concatenation of the sections of the buckets of `data` that have
matches, in ascending order of the bucket names. -/
def RendersSections (data : matchMap) (text : GoString) : Prop :=
  ∃ shown : List (GoString × List Match),
    shown.Perm (data.filter (fun e => decide (e.2 ≠ []))) ∧
    shown.Pairwise (fun a b => stringLess a.1 b.1 = true) ∧
    text = (shown.map bucketSection).flatten

/-- The buckets that `printResults` shows, in the order of its loop. -/
def shownBuckets (data : matchMap) : List (GoString × List Match) :=
  ((sortStrings (data.map Prod.fst)).map (fun k => (k, mapGet data k))).filter
    (fun e => decide (e.2 ≠ []))

/-! ## Example inputs -/

/-- A readable manifest with parsed content `v`. -/
def jsonFile (name : String) (v : Value) : DirEntry := ⟨name.toList, .read (some v)⟩

/-- The manifest `{"version": "2.40"}`. -/
def gitManifest : Value := .object [("version".toList, .string "2.40".toList)]

/-- The manifest `{"version": "8.0", "bin": "curl.exe"}`. -/
def curlManifest : Value :=
  .object [("version".toList, .string "8.0".toList), ("bin".toList, .string "curl.exe".toList)]

/-- The bucket `main` of the scenario in the specification, with a file that is not a
manifest (and is never read). -/
def mainBucket : List DirEntry :=
  [⟨"README.md".toList, .unreadable⟩, jsonFile "curl.json" curlManifest,
    jsonFile "git.json" gitManifest]

/-- A listing in the order of `ioutil.ReadDir` (by file name) whose sorted result differs
from it. -/
def mixedCaseBucket : List DirEntry :=
  [jsonFile "Zip.json" (.object []), jsonFile "curl.json" curlManifest,
    jsonFile "git.json" gitManifest]

/-- The manifest `tool.json` with content `{"bin": "json-tool.exe"}`. -/
def jsonToolFile : DirEntry :=
  jsonFile "tool.json" (.object [("bin".toList, .string "json-tool.exe".toList)])

/-- Two buckets with matches, `main` inserted before `extras`, and a bucket without. -/
def twoBuckets : matchMap :=
  [("main".toList, [⟨"curl".toList, "8.0".toList, []⟩]),
    ("empty".toList, []),
    ("extras".toList, [⟨"tool".toList, "1.2".toList, "alt.exe".toList⟩])]

/-- A mapping whose buckets have no match. -/
def emptyBuckets : matchMap :=
  [("main".toList, []), ("extras".toList, [])]

/-- The `bin` member `["a.exe", ["b.exe", "b-alias.exe", "--flag"]]`. -/
def flaggedBin : Value :=
  .array [.string "a.exe".toList,
    .array [.string "b.exe".toList, .string "b-alias.exe".toList, .string "--flag".toList]]

/-- The manifest `tool.json` with content `{"bin": [["real.exe", "alt.exe"]]}`. -/
def altToolFile : DirEntry :=
  jsonFile "tool.json"
    (.object [("bin".toList, .array [.array [.string "real.exe".toList, .string "alt.exe".toList]])])

/-- A listing with a manifest whose `bin` member is a number. -/
def numberBinBucket : List DirEntry :=
  [jsonFile "git.json" gitManifest,
    jsonFile "tool.json" (.object [("bin".toList, .number "5".toList)])]

/-- The executable name `K:foo.exe` written with the Kelvin sign. -/
def kelvinName : GoString :=
  Char.ofNat 0x212A :: ":foo.exe".toList

/-- A manifest `tool.json` that declares the one executable `bin`. -/
def toolWithBin (bin : GoString) : DirEntry :=
  jsonFile "tool.json" (.object [("bin".toList, .string bin)])

/-! ## The aggregate built by main -/

/-- The map assignment `data[k] = v`: the value of an existing key is replaced, a new key
is added. -/
def mapSet (data : matchMap) (k : GoString) (v : List Match) : matchMap :=
  match data with
  | [] => [(k, v)]
  | (k', v') :: rest => if k' = k then (k, v) :: rest else (k', v') :: mapSet rest k v

/-- The map `matches.data` of main after the assignments of line 53 have been made in
the order `writes`, starting from the empty map of line 45. -/
def aggregate (writes : List (GoString × List Match)) : matchMap :=
  writes.foldl (fun data w => mapSet data w.1 w.2) []

/-! ## The candidates of a `bin` member, in the words of the specification -/

/-- An element of a `bin` array that is a string or a nested array of at least two
strings. -/
def StringOrStrings : Value → Prop
  | .string _ => True
  | .array l => 2 ≤ l.length ∧ ∀ x ∈ l, x.isString = Bool.true
  | _ => False

/-- The candidates that one element of a `bin` array contributes: a string itself, a
nested array its first two elements. -/
def elementCandidates : Value → List GoString
  | .string s => [s]
  | .array l => (l.take 2).map Value.stringBytes
  | _ => []

/-- The element of a `bin` array without the third and later elements of a nested
array. -/
def dropFlags : Value → Value
  | .array l => .array (l.take 2)
  | v => v

/-- The value that `ParseBytes` returned for an entry, `nil` when it was not read. -/
def FileContent.result : FileContent → Option Value
  | .unreadable => none
  | .read r => r

/-- The match of a manifest by its name. -/
def nameMatch (f : DirEntry) : Match :=
  ⟨manifestName f.name, Value.GetStringBytes f.content.result "version".toList, []⟩

/-- The base name of a candidate without its extension, in lower case: the text in
which line 125 looks for the term. -/
def candidateStem (tbl : Char → Char) (c : GoString) : GoString :=
  ToLower tbl (TrimSuffix (Base c) (Ext (Base c)))

/-! ## Letter case -/

/-- Two runes that differ at most in letter case: they have the same lower-case form and
are both ASCII or both not. -/
def sameLetter (tbl : Char → Char) (a b : Char) : Prop :=
  unicodeToLower tbl a = unicodeToLower tbl b ∧ (a.toNat ≤ 0x7F ↔ b.toNat ≤ 0x7F)

/-- Two strings of which one is the other with the case of some letters changed, rune by
rune, ASCII runes staying ASCII. -/
def CaseVariant (tbl : Char → Char) (s t : GoString) : Prop :=
  List.Forall₂ (sameLetter tbl) s t

/-- A case table that has the entry of `unicode.CaseRanges` for the Kelvin sign U+212A,
whose lower case is the ASCII letter `k`, and leaves the other runes alone. -/
def kelvinTable (r : Char) : Char :=
  if r = Char.ofNat 0x212A then 'k' else r

/-! ## Library facts -/

theorem HasPrefix_iff (s p : GoString) : HasPrefix s p = true ↔ p <+: s := by
  induction p generalizing s with
  | nil => simp [HasPrefix]
  | cons a p ih =>
    cases s with
    | nil => simp [HasPrefix]
    | cons c s =>
      simp only [HasPrefix, Bool.and_eq_true, beq_iff_eq, ih, List.cons_prefix_cons]
      exact and_congr_left fun _ => eq_comm

theorem Contains_iff (s substr : GoString) : Contains s substr = true ↔ substr <:+: s := by
  induction s with
  | nil =>
    simp [Contains, HasPrefix_iff]
  | cons c s ih =>
    simp only [Contains, Bool.or_eq_true, HasPrefix_iff, ih, List.infix_cons_iff]

theorem HasSuffix_iff (s suffix : GoString) : HasSuffix s suffix = true ↔ suffix <:+ s := by
  simp [HasSuffix, HasPrefix_iff, List.reverse_prefix]

theorem ToLower_append (tbl : Char → Char) (a b : GoString) :
    ToLower tbl (a ++ b) = ToLower tbl a ++ ToLower tbl b := by
  simp [ToLower]

theorem manifestName_append_json (stem : GoString) :
    manifestName (stem ++ ".json".toList) = stem := by
  have h : (stem ++ ".json".toList).length - 5 = stem.length := by
    rw [List.length_append]; exact Nat.add_sub_cancel ..
  rw [manifestName, h, List.take_left']
  rfl

theorem name_eq_of_HasSuffix {name : GoString} (h : HasSuffix name ".json".toList = true) :
    name = manifestName name ++ ".json".toList := by
  rw [HasSuffix_iff] at h
  obtain ⟨t, rfl⟩ := h
  rw [manifestName_append_json]

/-! ## The scan loop, one file at a time -/

theorem scanFiles_cons (tbl : Char → Char) (term : GoString) (file : DirEntry)
    (files : List DirEntry) (res : List Match) :
    scanFiles tbl term (file :: files) res =
      match fileStep tbl term file with
      | .error e => .error e
      | .ok c => scanFiles tbl term files (res ++ c) := by
  simp only [fileStep, scanFiles]
  repeat' split
  all_goals simp_all

theorem scanFiles_acc (tbl : Char → Char) (term : GoString) (files : List DirEntry)
    (res : List Match) :
    scanFiles tbl term files res =
      match scanFiles tbl term files [] with
      | .error e => .error e
      | .ok c => .ok (res ++ c) := by
  induction files generalizing res with
  | nil => simp [scanFiles]
  | cons file files ih =>
    rw [scanFiles_cons, scanFiles_cons tbl term file files []]
    cases hstep : fileStep tbl term file with
    | error e => rfl
    | ok c =>
      simp only [List.nil_append]
      rw [ih (res ++ c), ih c]
      cases scanFiles tbl term files [] with
      | error e => rfl
      | ok d => simp

theorem scanFiles_append (tbl : Char → Char) (term : GoString) (pre post : List DirEntry)
    (res : List Match) :
    scanFiles tbl term (pre ++ post) res =
      match scanFiles tbl term pre res with
      | .error e => .error e
      | .ok mid => scanFiles tbl term post mid := by
  induction pre generalizing res with
  | nil => simp [scanFiles]
  | cons file pre ih =>
    rw [List.cons_append, scanFiles_cons, scanFiles_cons]
    cases fileStep tbl term file with
    | error e => rfl
    | ok c => exact ih _

/-- What a directory entry can add: nothing, or one match named after the file. -/
theorem fileStep_ok {tbl : Char → Char} {term : GoString} {file : DirEntry} {c : List Match}
    (h : fileStep tbl term file = .ok c) :
    c = [] ∨ (HasSuffix file.name ".json".toList = true ∧
      ∃ result b, file.content = .read result ∧
        c = [⟨manifestName file.name, Value.GetStringBytes result "version".toList, b⟩]) := by
  simp only [fileStep, scanFiles] at h
  repeat' split at h
  all_goals simp_all
  all_goals (first | exact Or.inl h.symm | exact Or.inr ⟨_, h.symm⟩)

/-- A file whose name contains the term is matched by name. -/
theorem fileStep_name {tbl : Char → Char} {term : GoString} {file : DirEntry}
    {result : Option Value} (hj : HasSuffix file.name ".json".toList = true)
    (hr : file.content = .read result) (hc : Contains (ToLower tbl file.name) term = true) :
    fileStep tbl term file =
      .ok [⟨manifestName file.name, Value.GetStringBytes result "version".toList, []⟩] := by
  simp_all [fileStep, scanFiles]

/-- An unreadable manifest aborts the scan. -/
theorem fileStep_unreadable {tbl : Char → Char} {term : GoString} {file : DirEntry}
    (hj : HasSuffix file.name ".json".toList = true) (hr : file.content = .unreadable) :
    fileStep tbl term file = .error .checkFailed := by
  simp_all [fileStep, scanFiles]

/-- A manifest whose file name does not contain the term and whose `bin` decodes is
matched by its first candidate that contains the term, if there is one. -/
theorem fileStep_bin {tbl : Char → Char} {term : GoString} {file : DirEntry}
    {result : Option Value} {bin : Value} {bins : List GoString}
    (hj : HasSuffix file.name ".json".toList = true) (hr : file.content = .read result)
    (hn : Contains (ToLower tbl file.name) term = false)
    (hb : Value.Get result "bin".toList = some bin) (hd : decodeBin bin = .ok bins) :
    fileStep tbl term file =
      match firstMatchingBin tbl term bins with
      | some b =>
        .ok [⟨manifestName file.name, Value.GetStringBytes result "version".toList, b⟩]
      | none => .ok [] := by
  simp only [fileStep, scanFiles, hr, hn, hb, hd]
  split
  · simp_all
  · cases firstMatchingBin tbl term bins <;> simp

/-- The loop over the candidates finds the first base name whose stem contains the
term. -/
theorem firstMatchingBin_eq_find (tbl : Char → Char) (term : GoString) (bins : List GoString) :
    firstMatchingBin tbl term bins =
      (bins.map Base).find? (fun b => Contains (ToLower tbl (TrimSuffix b (Ext b))) term) := by
  induction bins with
  | nil => rfl
  | cons b bins ih =>
    simp only [firstMatchingBin, List.map_cons, List.find?_cons]
    split <;> simp_all

/-! ## The order on strings and the stable sort -/

theorem stringLess_irrefl (a : GoString) : stringLess a a = false := by
  induction a with
  | nil => rfl
  | cons c a ih => simp [stringLess, ih]

theorem stringLess_asymm {a b : GoString} (h : stringLess a b = true) :
    stringLess b a = false := by
  induction a generalizing b with
  | nil => cases b <;> simp_all [stringLess]
  | cons c a ih =>
    cases b with
    | nil => simp_all [stringLess]
    | cons d b =>
      simp only [stringLess] at h ⊢
      split_ifs at h ⊢ with h1 h2 h3
      · omega
      · rfl
      · exact ih h

/-- The order `a ≤ b` (that is, not `b < a`) is transitive. -/
theorem stringLess_negtrans {a b c : GoString} (hab : stringLess b a = false)
    (hbc : stringLess c b = false) : stringLess c a = false := by
  induction a generalizing b c with
  | nil => cases c <;> rfl
  | cons x a ih =>
    cases b with
    | nil => simp [stringLess] at hab
    | cons y b =>
      cases c with
      | nil => simp [stringLess] at hbc
      | cons z c =>
        simp only [stringLess] at hab hbc ⊢
        split_ifs at hab hbc ⊢ with h1 h2 h3 h4 h5 h6
        all_goals first
          | omega
          | rfl
          | exact ih hab hbc

/-- Two different strings are ordered one way or the other. -/
theorem stringLess_total {a b : GoString} (hne : a ≠ b) (h : stringLess b a = false) :
    stringLess a b = true := by
  induction a generalizing b with
  | nil =>
    cases b with
    | nil => exact absurd rfl hne
    | cons d b => rfl
  | cons x a ih =>
    cases b with
    | nil => simp [stringLess] at h
    | cons y b =>
      simp only [stringLess] at h ⊢
      split_ifs at h ⊢ with h1 h2
      · rfl
      · have hxy : x = y := Char.ext (UInt32.ext (by
          show x.toNat = y.toNat
          omega))
        subst hxy
        exact ih (fun hab => hne (by rw [hab])) h

theorem insertStable_perm {α : Type} (less : α → α → Bool) (x : α) (l : List α) :
    (insertStable less x l).Perm (x :: l) := by
  induction l with
  | nil => exact List.Perm.refl _
  | cons y ys ih =>
    simp only [insertStable]
    split
    · exact (List.Perm.cons y ih).trans (List.Perm.swap x y ys)
    · exact List.Perm.refl _

theorem SliceStable_perm {α : Type} (less : α → α → Bool) (l : List α) :
    (SliceStable less l).Perm l := by
  induction l with
  | nil => exact List.Perm.refl _
  | cons x xs ih =>
    exact (insertStable_perm less x _).trans (List.Perm.cons x ih)

theorem insertStable_sorted {α : Type} (less : α → α → Bool)
    (hasymm : ∀ a b, less a b = true → less b a = false)
    (htrans : ∀ a b c, less b a = false → less c b = false → less c a = false)
    (x : α) (l : List α) (hl : l.Pairwise (fun a b => less b a = false)) :
    (insertStable less x l).Pairwise (fun a b => less b a = false) := by
  induction l with
  | nil => simp [insertStable]
  | cons y ys ih =>
    rw [List.pairwise_cons] at hl
    simp only [insertStable]
    split
    next hyx =>
      rw [List.pairwise_cons]
      refine ⟨fun z hz => ?_, ih hl.2⟩
      rcases List.mem_cons.mp ((insertStable_perm less x ys).mem_iff.mp hz) with hz | hz
      · subst hz
        exact hasymm _ _ hyx
      · exact hl.1 z hz
    next hyx =>
      have hyx' : less y x = false := by simpa using hyx
      rw [List.pairwise_cons]
      refine ⟨fun z hz => ?_, List.pairwise_cons.mpr hl⟩
      rw [List.mem_cons] at hz
      rcases hz with hz | hz
      · subst hz
        exact hyx'
      · exact htrans x y z hyx' (hl.1 z hz)

theorem SliceStable_sorted {α : Type} (less : α → α → Bool)
    (hasymm : ∀ a b, less a b = true → less b a = false)
    (htrans : ∀ a b c, less b a = false → less c b = false → less c a = false)
    (l : List α) : (SliceStable less l).Pairwise (fun a b => less b a = false) := by
  induction l with
  | nil => exact List.Pairwise.nil
  | cons x xs ih => exact insertStable_sorted less hasymm htrans x _ ih

/-- Insertion keeps the order among the elements that `less` does not separate. -/
theorem insertStable_filter {α : Type} (less : α → α → Bool) (p : α → Bool)
    (hp : ∀ a b, p a = true → p b = true → less b a = false) (x : α) (l : List α) :
    (insertStable less x l).filter p = (x :: l).filter p := by
  induction l with
  | nil => rfl
  | cons y ys ih =>
    simp only [insertStable]
    split
    next hyx =>
      rw [List.filter_cons, ih]
      cases hx : p x with
      | false => simp [List.filter_cons, hx]
      | true =>
        have hy : p y = false := by
          cases hy : p y with
          | false => rfl
          | true => rw [hp x y hx hy] at hyx; cases hyx
        simp [List.filter_cons, hx, hy]
    next => rfl

theorem SliceStable_filter {α : Type} (less : α → α → Bool) (p : α → Bool)
    (hp : ∀ a b, p a = true → p b = true → less b a = false) (l : List α) :
    (SliceStable less l).filter p = l.filter p := by
  induction l with
  | nil => rfl
  | cons x xs ih =>
    show (insertStable less x (SliceStable less xs)).filter p = _
    rw [insertStable_filter less p hp, List.filter_cons, List.filter_cons, ih]

/-! ## What the scan collects -/

theorem scanFiles_cons_ok {tbl : Char → Char} {term : GoString} {file : DirEntry}
    {files : List DirEntry} {c : List Match}
    (h : scanFiles tbl term (file :: files) [] = .ok c) :
    ∃ c1 c2, fileStep tbl term file = .ok c1 ∧ scanFiles tbl term files [] = .ok c2 ∧
      c = c1 ++ c2 := by
  rw [scanFiles_cons] at h
  cases h1 : fileStep tbl term file with
  | error e => rw [h1] at h; cases h
  | ok c1 =>
    rw [h1] at h
    simp only [List.nil_append] at h
    rw [scanFiles_acc] at h
    cases h2 : scanFiles tbl term files [] with
    | error e => rw [h2] at h; cases h
    | ok c2 =>
      rw [h2] at h
      cases h
      exact ⟨c1, c2, rfl, rfl, rfl⟩

theorem matchingManifests_ok {tbl : Char → Char} {files : List DirEntry} {term : GoString}
    {res : List Match} (h : matchingManifests tbl files term = .ok res) :
    ∃ collected, scanFiles tbl (ToLower tbl term) files [] = .ok collected ∧
      res = SliceStable (lessByName tbl) collected := by
  unfold matchingManifests collectMatches at h
  cases hc : scanFiles tbl (ToLower tbl term) files [] with
  | error e => rw [hc] at h; cases h
  | ok collected =>
    rw [hc] at h
    cases h
    exact ⟨collected, rfl, rfl⟩

/-- A manifest whose file name contains the term is collected as a name match. -/
theorem scanFiles_name_mem {tbl : Char → Char} {term : GoString} {files : List DirEntry}
    {c : List Match} (h : scanFiles tbl term files [] = .ok c) {file : DirEntry}
    (hf : file ∈ files) (hj : HasSuffix file.name ".json".toList = true)
    (hc : Contains (ToLower tbl file.name) term = true) :
    ∃ result, file.content = .read result ∧
      (⟨manifestName file.name, Value.GetStringBytes result "version".toList, []⟩ : Match) ∈ c := by
  induction files generalizing c with
  | nil => cases hf
  | cons g files ih =>
    obtain ⟨c1, c2, h1, h2, rfl⟩ := scanFiles_cons_ok h
    rcases List.mem_cons.mp hf with hfg | hfg
    · subst hfg
      cases hcont : file.content with
      | unreadable => rw [fileStep_unreadable hj hcont] at h1; cases h1
      | read result =>
        rw [fileStep_name hj hcont hc] at h1
        cases h1
        exact ⟨result, rfl, by simp⟩
    · obtain ⟨result, hr, hm⟩ := ih h2 hfg
      exact ⟨result, hr, List.mem_append_right _ hm⟩

/-- The names collected are those of distinct manifests of the listing, in order. -/
theorem scanFiles_names_sublist {tbl : Char → Char} {term : GoString} {files : List DirEntry}
    {c : List Match} (h : scanFiles tbl term files [] = .ok c) :
    (c.map Match.name).Sublist (manifestStems files) := by
  induction files generalizing c with
  | nil =>
    simp only [scanFiles] at h
    cases h
    exact List.Sublist.refl _
  | cons g files ih =>
    obtain ⟨c1, c2, h1, h2, rfl⟩ := scanFiles_cons_ok h
    have ih2 := ih h2
    rcases fileStep_ok h1 with hc1 | ⟨hj, result, b, -, hc1⟩
    · subst hc1
      simp only [List.nil_append, manifestStems, List.filter_cons]
      split
      · exact List.Sublist.cons _ ih2
      · exact ih2
    · subst hc1
      simp only [manifestStems, List.filter_cons, hj, if_true, List.map_cons,
        List.singleton_append]
      exact List.Sublist.cons₂ _ ih2

theorem scanFiles_middle (tbl : Char → Char) (term : GoString) (pre post : List DirEntry)
    (file : DirEntry) (res : List Match) :
    scanFiles tbl term (pre ++ file :: post) res =
      match scanFiles tbl term pre res with
      | .error e => .error e
      | .ok mid =>
        match fileStep tbl term file with
        | .error e => .error e
        | .ok c => scanFiles tbl term post (mid ++ c) := by
  rw [scanFiles_append]
  cases scanFiles tbl term pre res with
  | error e => rfl
  | ok mid => exact scanFiles_cons tbl term file post mid

/-- Two entries that do the same in the loop body are interchangeable in a listing. -/
theorem matchingManifests_congr {tbl : Char → Char} {term : GoString} {f g : DirEntry}
    (h : fileStep tbl (ToLower tbl term) f = fileStep tbl (ToLower tbl term) g)
    (pre post : List DirEntry) :
    matchingManifests tbl (pre ++ f :: post) term =
      matchingManifests tbl (pre ++ g :: post) term := by
  simp only [matchingManifests, collectMatches, scanFiles_middle, h]

/-- An entry that adds nothing can be left out of a listing. -/
theorem matchingManifests_skip {tbl : Char → Char} {term : GoString} {f : DirEntry}
    (h : fileStep tbl (ToLower tbl term) f = .ok []) (pre post : List DirEntry) :
    matchingManifests tbl (pre ++ f :: post) term = matchingManifests tbl (pre ++ post) term := by
  simp only [matchingManifests, collectMatches]
  rw [scanFiles_middle, scanFiles_append, h]
  simp only [List.append_nil]

/-- An entry that aborts makes the run abort, with its own abort when the entries
before it pass. -/
theorem matchingManifests_abort {tbl : Char → Char} {term : GoString} {f : DirEntry}
    {a : Abort} (h : fileStep tbl (ToLower tbl term) f = .error a) (pre post : List DirEntry) :
    (∃ e, matchingManifests tbl (pre ++ f :: post) term = .error e) ∧
    ∀ mid, scanFiles tbl (ToLower tbl term) pre [] = .ok mid →
      matchingManifests tbl (pre ++ f :: post) term = .error a := by
  simp only [matchingManifests, collectMatches, scanFiles_middle, h]
  cases scanFiles tbl (ToLower tbl term) pre [] with
  | error e => exact ⟨⟨e, rfl⟩, fun mid hmid => by cases hmid⟩
  | ok mid => exact ⟨⟨a, rfl⟩, fun _ _ => rfl⟩

theorem decodeArray_malformed (pre : List Value) (e : Value) (post : List Value)
    (bins : List GoString) (hpre : ∀ x ∈ pre, PairOrString x)
    (hs : e.isString = false) (ha : e.isArray = false) :
    decodeArray (pre ++ e :: post) bins = .error (.fatal badManifestErrMsg) := by
  induction pre generalizing bins with
  | nil =>
    cases e <;> first
      | rfl
      | (simp [Value.isString] at hs; done)
      | simp [Value.isArray] at ha
  | cons x pre ih =>
    have hx := hpre x (List.mem_cons_self _ _)
    have ih' := fun bins => ih bins (fun y hy => hpre y (List.mem_cons_of_mem _ hy))
    cases x with
    | string s => exact ih' _
    | array a =>
      match a, hx with
      | _ :: _ :: _, _ => exact ih' _
    | null => cases hx
    | object kvs => cases hx
    | number raw => cases hx
    | true => cases hx
    | false => cases hx

theorem decodeBin_malformed {bin : Value} (h : MalformedBin bin) :
    decodeBin bin = .error (.fatal badManifestErrMsg) := by
  rcases h with ⟨hs, ha⟩ | ⟨pre, e, post, rfl, hpre, hs, ha⟩
  · cases bin <;> first
      | rfl
      | (simp [Value.isString] at hs; done)
      | simp [Value.isArray] at ha
  · exact decodeArray_malformed pre e post [] hpre hs ha

theorem writeMatches_eq (v : List Match) (display : GoString) :
    writeMatches v display = display ++ (v.map matchLine).flatten := by
  induction v generalizing display with
  | nil => simp [writeMatches]
  | cons m v ih =>
    simp only [writeMatches, ih, List.map_cons, List.flatten_cons, matchLine]
    split <;> simp only [List.append_assoc, List.append_nil]

theorem writeBuckets_eq (data : matchMap) (keys : List GoString) (display : GoString)
    (anyMatches : Bool) :
    writeBuckets data keys (display, anyMatches) =
      (display ++ (((keys.map (fun k => (k, mapGet data k))).filter
          (fun e => decide (e.2 ≠ []))).map bucketSection).flatten,
        anyMatches || !((keys.map (fun k => (k, mapGet data k))).filter
          (fun e => decide (e.2 ≠ []))).isEmpty) := by
  induction keys generalizing display anyMatches with
  | nil => simp [writeBuckets]
  | cons k keys ih =>
    simp only [writeBuckets, List.map_cons, List.filter_cons]
    by_cases hv : mapGet data k = []
    · simp only [hv, List.length_nil, gt_iff_lt, Nat.lt_irrefl, if_false, ih, ne_eq,
        not_true_eq_false, decide_False, Bool.false_eq_true]
    · have hlen : (mapGet data k).length > 0 := List.length_pos.mpr hv
      simp only [hlen, if_true, ih, writeMatches_eq, ne_eq, hv, not_false_eq_true,
        decide_True, List.map_cons, List.flatten_cons, bucketSection, List.append_assoc,
        List.isEmpty_cons, Bool.not_false, Bool.or_true, Bool.true_or]

theorem mapGet_of_mem {data : matchMap} (hkeys : (data.map Prod.fst).Nodup)
    {e : GoString × List Match} (he : e ∈ data) : mapGet data e.1 = e.2 := by
  induction data with
  | nil => cases he
  | cons d data ih =>
    rw [List.map_cons, List.nodup_cons] at hkeys
    obtain ⟨k', v'⟩ := d
    simp only [mapGet]
    rcases List.mem_cons.mp he with h | h
    · subst h
      simp
    · have hne : k' ≠ e.1 := by
        intro hk
        exact hkeys.1 (List.mem_map.mpr ⟨e, h, hk.symm⟩)
      rw [if_neg hne]
      exact ih hkeys.2 h

theorem printResults_eq (data : matchMap) :
    printResults data =
      (((shownBuckets data).map bucketSection).flatten ++
          (if (shownBuckets data).isEmpty then "No matches found.".toList else []),
        !(shownBuckets data).isEmpty) := by
  simp only [printResults, writeBuckets_eq, shownBuckets, List.nil_append, Bool.false_or]
  split <;> simp_all

theorem shownBuckets_perm (data : matchMap) (hkeys : (data.map Prod.fst).Nodup) :
    (shownBuckets data).Perm (data.filter (fun e => decide (e.2 ≠ []))) := by
  refine List.Perm.filter _ ?_
  have h1 : ((sortStrings (data.map Prod.fst)).map (fun k => (k, mapGet data k))).Perm
      ((data.map Prod.fst).map (fun k => (k, mapGet data k))) :=
    (SliceStable_perm stringLess _).map _
  have h2 : (data.map Prod.fst).map (fun k => (k, mapGet data k)) = data := by
    rw [List.map_map]
    conv_rhs => rw [← List.map_id data]
    refine List.map_congr_left fun e he => ?_
    simp only [Function.comp_apply, mapGet_of_mem hkeys he, id]
  rw [h2] at h1
  exact h1

theorem sortStrings_ascending (keys : List GoString) (hkeys : keys.Nodup) :
    (sortStrings keys).Pairwise (fun a b => stringLess a b = true) := by
  have hs : (sortStrings keys).Pairwise (fun a b => stringLess b a = false) :=
    SliceStable_sorted stringLess (fun _ _ h => stringLess_asymm h)
      (fun _ _ _ h1 h2 => stringLess_negtrans h1 h2) keys
  have hn : (sortStrings keys).Pairwise (fun a b => a ≠ b) :=
    ((SliceStable_perm stringLess keys).nodup_iff.mpr hkeys)
  exact (hs.and hn).imp fun h => stringLess_total h.2 h.1

theorem shownBuckets_ascending (data : matchMap) (hkeys : (data.map Prod.fst).Nodup) :
    (shownBuckets data).Pairwise (fun a b => stringLess a.1 b.1 = true) := by
  refine List.Pairwise.filter _ ?_
  rw [List.pairwise_map]
  exact sortStrings_ascending _ hkeys

/-! ## The aggregate and the order of its entries -/

theorem mapSet_new (data : matchMap) (k : GoString) (v : List Match)
    (hk : k ∉ data.map Prod.fst) : mapSet data k v = data ++ [(k, v)] := by
  induction data with
  | nil => rfl
  | cons d data ih =>
    obtain ⟨k', v'⟩ := d
    simp only [List.map_cons, List.mem_cons, not_or] at hk
    simp only [mapSet, List.cons_append]
    rw [if_neg (fun h => hk.1 h.symm), ih hk.2]

theorem foldl_mapSet_new (acc writes : List (GoString × List Match))
    (hkeys : ((acc ++ writes).map Prod.fst).Nodup) :
    writes.foldl (fun data w => mapSet data w.1 w.2) acc = acc ++ writes := by
  induction writes generalizing acc with
  | nil => simp
  | cons w writes ih =>
    have hw : w.1 ∉ acc.map Prod.fst := by
      rw [List.map_append, List.map_cons] at hkeys
      intro hmem
      exact (List.nodup_append.mp hkeys).2.2 hmem (List.mem_cons_self _ _)
    rw [List.foldl_cons, mapSet_new acc w.1 w.2 hw]
    have hkeys' : (((acc ++ [(w.1, w.2)]) ++ writes).map Prod.fst).Nodup := by
      simpa using hkeys
    rw [ih _ hkeys']
    simp

/-- Writes under distinct keys leave, pair by pair, the list of the writes. -/
theorem aggregate_distinct (writes : List (GoString × List Match))
    (hkeys : (writes.map Prod.fst).Nodup) : aggregate writes = writes := by
  have h := foldl_mapSet_new [] writes (by simpa using hkeys)
  simpa [aggregate] using h

theorem shownBuckets_congr {d1 d2 : matchMap} (hperm : d1.Perm d2)
    (hkeys : (d1.map Prod.fst).Nodup) : shownBuckets d1 = shownBuckets d2 := by
  have hkeys2 : (d2.map Prod.fst).Nodup := (hperm.map _).nodup_iff.mp hkeys
  haveI : IsAntisymm (GoString × List Match) (fun a b => stringLess a.1 b.1 = true) :=
    ⟨fun a b h1 h2 => by rw [stringLess_asymm h1] at h2; cases h2⟩
  refine List.eq_of_perm_of_sorted ?_ (shownBuckets_ascending d1 hkeys)
    (shownBuckets_ascending d2 hkeys2)
  exact (shownBuckets_perm d1 hkeys).trans
    ((hperm.filter _).trans (shownBuckets_perm d2 hkeys2).symm)

/-- The report depends on the map only, not on the order of its pairs. -/
theorem printResults_congr {d1 d2 : matchMap} (hperm : d1.Perm d2)
    (hkeys : (d1.map Prod.fst).Nodup) : printResults d1 = printResults d2 := by
  rw [printResults_eq, printResults_eq, shownBuckets_congr hperm hkeys]

theorem shownBuckets_isEmpty (data : matchMap) (hkeys : (data.map Prod.fst).Nodup) :
    (shownBuckets data).isEmpty = true ↔ ∀ e ∈ data, e.2 = [] := by
  have hperm := shownBuckets_perm data hkeys
  rw [List.isEmpty_iff]
  constructor
  · intro h e he
    by_contra hne
    have : e ∈ shownBuckets data :=
      hperm.mem_iff.mpr (List.mem_filter.mpr ⟨he, by simpa using hne⟩)
    rw [h] at this
    cases this
  · intro hall
    have hnil : data.filter (fun e => decide (e.2 ≠ [])) = [] := by
      rw [List.filter_eq_nil_iff]
      intro e he
      simp [hall e he]
    rw [hnil] at hperm
    exact List.perm_nil.mp hperm

theorem filter_json_cons_pos {f : DirEntry} (files : List DirEntry)
    (hj : HasSuffix f.name ".json".toList = true) :
    (f :: files).filter (fun f => HasSuffix f.name ".json".toList) =
      f :: files.filter (fun f => HasSuffix f.name ".json".toList) := by
  simp only [List.filter_cons, hj, if_true]

theorem filter_json_cons_neg {f : DirEntry} (files : List DirEntry)
    (hj : HasSuffix f.name ".json".toList = false) :
    (f :: files).filter (fun f => HasSuffix f.name ".json".toList) =
      files.filter (fun f => HasSuffix f.name ".json".toList) := by
  simp only [List.filter_cons, hj, Bool.false_eq_true, if_false]

theorem scanFiles_filter_json (tbl : Char → Char) (term : GoString) (files : List DirEntry)
    (res : List Match) :
    scanFiles tbl term files res =
      scanFiles tbl term (files.filter (fun f => HasSuffix f.name ".json".toList)) res := by
  induction files generalizing res with
  | nil => rfl
  | cons f files ih =>
    cases hj : HasSuffix f.name ".json".toList with
    | true =>
      rw [filter_json_cons_pos files hj, scanFiles_cons, scanFiles_cons]
      cases fileStep tbl term f with
      | error e => rfl
      | ok c => exact ih _
    | false =>
      rw [filter_json_cons_neg files hj, ← ih]
      conv_lhs => rw [scanFiles]
      simp only [hj, Bool.not_false, if_true]

theorem filter_json_hideNonManifest (files : List DirEntry) :
    (files.map hideNonManifest).filter (fun f => HasSuffix f.name ".json".toList) =
      files.filter (fun f => HasSuffix f.name ".json".toList) := by
  induction files with
  | nil => rfl
  | cons f files ih =>
    cases hj : HasSuffix f.name ".json".toList with
    | true =>
      have h1 : hideNonManifest f = f := by rw [hideNonManifest, if_pos hj]
      rw [List.map_cons, h1, filter_json_cons_pos _ hj, filter_json_cons_pos _ hj, ih]
    | false =>
      have h1 : hideNonManifest f = ⟨f.name, .unreadable⟩ := by
        rw [hideNonManifest, if_neg (by rw [hj]; exact Bool.false_ne_true)]
      have hj' : HasSuffix (DirEntry.mk f.name .unreadable).name ".json".toList = false := hj
      rw [List.map_cons, h1, filter_json_cons_neg _ hj', filter_json_cons_neg _ hj, ih]

/-! ## Decoding and matching of candidates -/

theorem decodeArray_eq (a : List Value) (bins : List GoString)
    (ha : ∀ e ∈ a, StringOrStrings e) :
    decodeArray a bins = .ok (bins ++ (a.map elementCandidates).flatten) := by
  induction a generalizing bins with
  | nil => simp [decodeArray]
  | cons e a ih =>
    have he := ha e (List.mem_cons_self _ _)
    have ih' := fun bins => ih bins (fun x hx => ha x (List.mem_cons_of_mem _ hx))
    cases e with
    | string s =>
      simp only [decodeArray, ih', List.map_cons, List.flatten_cons, elementCandidates,
        List.append_assoc]
    | array l =>
      match l, he with
      | s0 :: s1 :: rest, _ =>
        simp only [decodeArray, ih', List.map_cons, List.flatten_cons, elementCandidates,
          List.append_assoc, List.take_succ_cons, List.take_zero, List.map_nil]
    | null => cases he
    | object kvs => cases he
    | number raw => cases he
    | true => cases he
    | false => cases he

theorem elementCandidates_dropFlags (e : Value) :
    elementCandidates (dropFlags e) = elementCandidates e := by
  cases e <;> simp [dropFlags, elementCandidates, List.take_take]

theorem StringOrStrings_dropFlags {e : Value} (he : StringOrStrings e) :
    StringOrStrings (dropFlags e) := by
  cases e with
  | array l =>
    obtain ⟨hlen, hall⟩ := he
    refine ⟨?_, fun x hx => hall x (List.mem_of_mem_take hx)⟩
    rw [List.length_take]
    omega
  | string s => exact he
  | null => exact he
  | object kvs => exact he
  | number raw => exact he
  | true => exact he
  | false => exact he

theorem Base_ne_nil (path : GoString) : Base path ≠ [] := by
  unfold Base
  split
  · simp
  · simp only
    split
    · simp
    · assumption

theorem firstMatchingBin_some {tbl : Char → Char} {term : GoString} {bins : List GoString}
    {b : GoString} (h : firstMatchingBin tbl term bins = some b) :
    ∃ c ∈ bins, b = Base c ∧ Contains (candidateStem tbl c) term = true := by
  induction bins with
  | nil => simp [firstMatchingBin] at h
  | cons c bins ih =>
    simp only [firstMatchingBin] at h
    split at h
    next hc =>
      cases h
      exact ⟨c, List.mem_cons_self _ _, rfl, hc⟩
    next =>
      obtain ⟨c', hc', hb⟩ := ih h
      exact ⟨c', List.mem_cons_of_mem _ hc', hb⟩

/-- The three ways in which the loop body passes a directory entry. -/
theorem fileStep_cases {tbl : Char → Char} {term : GoString} {file : DirEntry} {c : List Match}
    (h : fileStep tbl term file = .ok c) :
    c = [] ∨
    (HasSuffix file.name ".json".toList = true ∧
      Contains (ToLower tbl file.name) term = true ∧
      ∃ result, file.content = .read result ∧
        c = [⟨manifestName file.name, Value.GetStringBytes result "version".toList, []⟩]) ∨
    (HasSuffix file.name ".json".toList = true ∧
      Contains (ToLower tbl file.name) term = false ∧
      ∃ result bin bins b, file.content = .read result ∧
        Value.Get result "bin".toList = some bin ∧ decodeBin bin = .ok bins ∧
        firstMatchingBin tbl term bins = some b ∧
        c = [⟨manifestName file.name, Value.GetStringBytes result "version".toList, b⟩]) := by
  cases hj : HasSuffix file.name ".json".toList with
  | false =>
    left
    simp only [fileStep, scanFiles, hj, Bool.not_false, if_true] at h
    cases h
    rfl
  | true =>
    cases hr : file.content with
    | unreadable => rw [fileStep_unreadable hj hr] at h; cases h
    | read result =>
      cases hn : Contains (ToLower tbl file.name) term with
      | true =>
        rw [fileStep_name hj hr hn] at h
        cases h
        exact Or.inr (Or.inl ⟨rfl, rfl, result, rfl, rfl⟩)
      | false =>
        cases hb : Value.Get result "bin".toList with
        | none =>
          left
          simp only [fileStep, scanFiles, hj, hr, hn, hb] at h
          simp at h
          exact h
        | some bin =>
          cases hd : decodeBin bin with
          | error e =>
            simp only [fileStep, scanFiles, hj, hr, hn, hb, hd] at h
            simp at h
          | ok bins =>
            rw [fileStep_bin hj hr hn hb hd] at h
            cases hf : firstMatchingBin tbl term bins with
            | none =>
              rw [hf] at h
              cases h
              exact Or.inl rfl
            | some b =>
              rw [hf] at h
              cases h
              exact Or.inr (Or.inr ⟨rfl, rfl, result, bin, bins, b, rfl, hb, hd, hf, rfl⟩)

/-- Every collected match comes from the loop body on one entry of the listing. -/
theorem scanFiles_mem {tbl : Char → Char} {term : GoString} {files : List DirEntry}
    {c : List Match} (h : scanFiles tbl term files [] = .ok c) {m : Match} (hm : m ∈ c) :
    ∃ file ∈ files, fileStep tbl term file = .ok [m] := by
  induction files generalizing c with
  | nil =>
    simp only [scanFiles] at h
    cases h
    cases hm
  | cons g files ih =>
    obtain ⟨c1, c2, h1, h2, rfl⟩ := scanFiles_cons_ok h
    rcases List.mem_append.mp hm with hm1 | hm2
    · refine ⟨g, List.mem_cons_self _ _, ?_⟩
      rcases fileStep_ok h1 with hc1 | ⟨-, result, b, -, hc1⟩
      · subst hc1
        cases hm1
      · subst hc1
        rw [List.mem_singleton] at hm1
        subst hm1
        exact h1
    · obtain ⟨file, hf, hstep⟩ := ih h2 hm2
      exact ⟨file, List.mem_cons_of_mem _ hf, hstep⟩

theorem Contains_nil (s : GoString) : Contains s [] = true := by
  rw [Contains_iff]
  exact List.nil_infix

theorem scanFiles_empty_term (tbl : Char → Char) (files : List DirEntry) (res : List Match)
    (hread : ∀ f ∈ files, HasSuffix f.name ".json".toList = true → f.content ≠ .unreadable) :
    scanFiles tbl [] files res =
      .ok (res ++ (files.filter (fun f => HasSuffix f.name ".json".toList)).map nameMatch) := by
  induction files generalizing res with
  | nil => simp [scanFiles]
  | cons f files ih =>
    have ih' := fun res => ih res (fun g hg => hread g (List.mem_cons_of_mem _ hg))
    cases hj : HasSuffix f.name ".json".toList with
    | false =>
      rw [filter_json_cons_neg files hj, ← ih']
      conv_lhs => rw [scanFiles]
      simp only [hj, Bool.not_false, if_true]
    | true =>
      rw [filter_json_cons_pos files hj, scanFiles_cons]
      cases hc : f.content with
      | unreadable => exact absurd hc (hread f (List.mem_cons_self _ _) hj)
      | read result =>
        rw [fileStep_name hj hc (Contains_nil _)]
        simp only [ih', List.map_cons, nameMatch, hc, FileContent.result, List.append_assoc,
          List.singleton_append]

/-! ## Letter case and the path functions -/

theorem char_eq_of_toNat {a b : Char} (h : a.toNat = b.toNat) : a = b :=
  Char.ext (UInt32.ext h)

theorem toNat_ofNat_small (n : Nat) (h : n < 200) : (Char.ofNat n).toNat = n := by
  have hv : n.isValidChar := Or.inl (by omega)
  simp [Char.ofNat, hv, Char.toNat, Char.ofNatAux, UInt32.toNat]

/-- The code of the lower-case form of an ASCII rune. -/
theorem unicodeToLower_toNat (tbl : Char → Char) (r : Char) (h : r.toNat ≤ 0x7F) :
    (unicodeToLower tbl r).toNat =
      if 65 ≤ r.toNat ∧ r.toNat ≤ 90 then r.toNat + 32 else r.toNat := by
  have hA : 'A'.toNat = 65 := rfl
  have hZ : 'Z'.toNat = 90 := rfl
  simp only [unicodeToLower, h, if_true, hA, hZ]
  split
  · exact toNat_ofNat_small _ (by omega)
  · rfl

/-- Runes that differ at most in letter case: both are beyond ASCII, or both are ASCII
and equal up to the shift between the two cases. -/
theorem sameLetter_toNat {tbl : Char → Char} {a b : Char} (h : sameLetter tbl a b) :
    (0x7F < a.toNat ∧ 0x7F < b.toNat) ∨
    (a.toNat ≤ 0x7F ∧ b.toNat ≤ 0x7F ∧
      (if 65 ≤ a.toNat ∧ a.toNat ≤ 90 then a.toNat + 32 else a.toNat) =
        (if 65 ≤ b.toNat ∧ b.toNat ≤ 90 then b.toNat + 32 else b.toNat)) := by
  obtain ⟨hl, hascii⟩ := h
  by_cases ha : a.toNat ≤ 0x7F
  · have hb := hascii.mp ha
    right
    refine ⟨ha, hb, ?_⟩
    rw [← unicodeToLower_toNat tbl a ha, ← unicodeToLower_toNat tbl b hb, hl]
  · left
    exact ⟨by omega, by have := mt hascii.mpr ha; omega⟩

theorem sameLetter_refl (tbl : Char → Char) (a : Char) : sameLetter tbl a a :=
  ⟨rfl, Iff.rfl⟩

theorem beq_char_iff (a c : Char) : (a == c) = true ↔ a.toNat = c.toNat := by
  rw [beq_iff_eq]
  exact ⟨fun h => by rw [h], char_eq_of_toNat⟩

theorem IsPathSeparator_iff (c : Char) :
    IsPathSeparator c = true ↔ c.toNat = 92 ∨ c.toNat = 47 := by
  simp only [IsPathSeparator, Bool.or_eq_true, beq_char_iff]
  rfl

theorem sameLetter_separator {tbl : Char → Char} {a b : Char} (h : sameLetter tbl a b) :
    IsPathSeparator a = IsPathSeparator b := by
  rw [Bool.eq_iff_iff, IsPathSeparator_iff, IsPathSeparator_iff]
  rcases sameLetter_toNat h with ⟨ha, hb⟩ | ⟨ha, hb, hab⟩
  · omega
  · split_ifs at hab <;> omega

theorem sameLetter_beq {tbl : Char → Char} {a b : Char} (h : sameLetter tbl a b) (c : Char)
    (hc : c.toNat < 65 ∨ (90 < c.toNat ∧ c.toNat < 97) ∨ (122 < c.toNat ∧ c.toNat ≤ 0x7F)) :
    (a == c) = (b == c) := by
  rw [Bool.eq_iff_iff, beq_char_iff, beq_char_iff]
  rcases sameLetter_toNat h with ⟨ha, hb⟩ | ⟨ha, hb, hab⟩
  · omega
  · split_ifs at hab <;> omega

theorem sameLetter_letter {tbl : Char → Char} {a b : Char} (h : sameLetter tbl a b) :
    (('a'.toNat ≤ a.toNat && a.toNat ≤ 'z'.toNat) ||
        ('A'.toNat ≤ a.toNat && a.toNat ≤ 'Z'.toNat)) =
      (('a'.toNat ≤ b.toNat && b.toNat ≤ 'z'.toNat) ||
        ('A'.toNat ≤ b.toNat && b.toNat ≤ 'Z'.toNat)) := by
  have h1 : 'a'.toNat = 97 := rfl
  have h2 : 'z'.toNat = 122 := rfl
  have h3 : 'A'.toNat = 65 := rfl
  have h4 : 'Z'.toNat = 90 := rfl
  rw [h1, h2, h3, h4, Bool.eq_iff_iff]
  simp only [Bool.or_eq_true, Bool.and_eq_true, decide_eq_true_eq]
  rcases sameLetter_toNat h with ⟨ha, hb⟩ | ⟨ha, hb, hab⟩
  · omega
  · split_ifs at hab <;> omega

theorem CaseVariant_ToLower {tbl : Char → Char} {s t : GoString} (h : CaseVariant tbl s t) :
    ToLower tbl s = ToLower tbl t := by
  induction h with
  | nil => rfl
  | cons hab _ ih =>
    simp only [ToLower, List.map_cons] at ih ⊢
    rw [hab.1, ih]

theorem CaseVariant_reverse {tbl : Char → Char} {s t : GoString} (h : CaseVariant tbl s t) :
    CaseVariant tbl s.reverse t.reverse :=
  List.rel_reverse h

theorem CaseVariant_dropWhile {tbl : Char → Char} (p : Char → Bool)
    (hp : ∀ a b, sameLetter tbl a b → p a = p b) {s t : GoString} (h : CaseVariant tbl s t) :
    CaseVariant tbl (s.dropWhile p) (t.dropWhile p) := by
  induction h with
  | nil => exact List.Forall₂.nil
  | cons hab hst ih =>
    simp only [List.dropWhile_cons, ← hp _ _ hab]
    split
    · exact ih
    · exact List.Forall₂.cons hab hst

theorem CaseVariant_takeWhile {tbl : Char → Char} (p : Char → Bool)
    (hp : ∀ a b, sameLetter tbl a b → p a = p b) {s t : GoString} (h : CaseVariant tbl s t) :
    CaseVariant tbl (s.takeWhile p) (t.takeWhile p) := by
  induction h with
  | nil => exact List.Forall₂.nil
  | cons hab hst ih =>
    simp only [List.takeWhile_cons, ← hp _ _ hab]
    split
    · exact List.Forall₂.cons hab ih
    · exact List.Forall₂.nil

theorem stripTrailingSeparators_congr {tbl : Char → Char} {s t : GoString}
    (h : CaseVariant tbl s t) :
    CaseVariant tbl (stripTrailingSeparators s) (stripTrailingSeparators t) :=
  CaseVariant_reverse
    (CaseVariant_dropWhile _ (fun _ _ hab => sameLetter_separator hab) (CaseVariant_reverse h))

theorem lastElement_congr {tbl : Char → Char} {s t : GoString} (h : CaseVariant tbl s t) :
    CaseVariant tbl (lastElement s) (lastElement t) :=
  CaseVariant_reverse
    (CaseVariant_takeWhile _ (fun _ _ hab => by rw [sameLetter_separator hab])
      (CaseVariant_reverse h))

theorem shareEnd_congr {tbl : Char → Char} {s t : GoString} (h : CaseVariant tbl s t)
    (n : Nat) : shareEnd s n = shareEnd t n := by
  induction h generalizing n with
  | nil => rfl
  | cons hab _ ih =>
    simp only [shareEnd, sameLetter_separator hab, ih]

theorem uncScan_congr {tbl : Char → Char} {s t : GoString} (h : CaseVariant tbl s t)
    (l n : Nat) : uncScan l s n = uncScan l t n := by
  induction h generalizing n with
  | nil => rfl
  | cons hab hst ih =>
    cases hst with
    | nil => simp only [uncScan, sameLetter_separator hab]
    | cons hcd hrest =>
      have hse := shareEnd_congr (List.Forall₂.cons hcd hrest) (n + 1)
      conv_lhs => rw [uncScan]
      conv_rhs => rw [uncScan]
      simp only [sameLetter_separator hab, sameLetter_separator hcd,
        sameLetter_beq hcd '.' (Or.inl (by decide)), ih, hse]

theorem volumeNameLen_congr {tbl : Char → Char} {s t : GoString} (h : CaseVariant tbl s t) :
    volumeNameLen s = volumeNameLen t := by
  have hlen := h.length_eq
  cases h with
  | nil => rfl
  | cons h0 hs =>
    cases hs with
    | nil => rfl
    | cons h1 hs =>
      cases hs with
      | nil =>
        simp only [volumeNameLen, sameLetter_beq h1 ':' (Or.inl (by decide)),
          sameLetter_letter h0]
      | cons h2 hs =>
        have hu := uncScan_congr hs
        simp only [List.length_cons] at hlen
        simp only [volumeNameLen, sameLetter_beq h1 ':' (Or.inl (by decide)),
          sameLetter_letter h0, sameLetter_separator h0, sameLetter_separator h1,
          sameLetter_separator h2, List.length_cons, hlen, List.drop_succ_cons, List.drop_zero,
          hu, bne, sameLetter_beq h2 '.' (Or.inl (by decide))]

theorem Base_congr {tbl : Char → Char} {s t : GoString} (h : CaseVariant tbl s t) :
    CaseVariant tbl (Base s) (Base t) := by
  have h1 := stripTrailingSeparators_congr h
  have h2 : CaseVariant tbl
      ((stripTrailingSeparators s).drop (volumeNameLen (stripTrailingSeparators s)))
      ((stripTrailingSeparators t).drop (volumeNameLen (stripTrailingSeparators t))) := by
    rw [volumeNameLen_congr h1]
    exact List.forall₂_drop _ h1
  have h3 := lastElement_congr h2
  have hnil : ∀ {u v : GoString}, CaseVariant tbl u v → (u = [] ↔ v = []) := by
    intro u v huv
    cases huv <;> simp
  unfold Base
  simp only
  by_cases hs : s = []
  · rw [if_pos hs, if_pos ((hnil h).mp hs)]
    exact List.Forall₂.cons (sameLetter_refl tbl _) List.Forall₂.nil
  · rw [if_neg hs, if_neg (fun ht => hs ((hnil h).mpr ht))]
    by_cases hl : lastElement
        ((stripTrailingSeparators s).drop (volumeNameLen (stripTrailingSeparators s))) = []
    · rw [if_pos hl, if_pos ((hnil h3).mp hl)]
      exact List.Forall₂.cons (sameLetter_refl tbl _) List.Forall₂.nil
    · rw [if_neg hl, if_neg (fun ht => hl ((hnil h3).mpr ht))]
      exact h3

theorem extScan_congr {tbl : Char → Char} {s t seen seen' : GoString}
    (h : CaseVariant tbl s t) (hseen : CaseVariant tbl seen seen') :
    CaseVariant tbl (extScan s seen) (extScan t seen') := by
  induction h generalizing seen seen' with
  | nil => exact List.Forall₂.nil
  | cons hab _ ih =>
    simp only [extScan, sameLetter_separator hab, sameLetter_beq hab '.' (Or.inl (by decide))]
    split
    · exact List.Forall₂.nil
    · split
      · exact List.Forall₂.cons hab hseen
      · exact ih (List.Forall₂.cons hab hseen)

theorem Ext_congr {tbl : Char → Char} {s t : GoString} (h : CaseVariant tbl s t) :
    CaseVariant tbl (Ext s) (Ext t) :=
  extScan_congr (CaseVariant_reverse h) List.Forall₂.nil

theorem extScan_suffix (rev seen : GoString) : extScan rev seen <:+ rev.reverse ++ seen := by
  induction rev generalizing seen with
  | nil => exact List.nil_suffix
  | cons c rev ih =>
    simp only [extScan]
    split
    · exact List.nil_suffix
    · split
      · rw [List.reverse_cons, List.append_assoc]
        exact List.suffix_append _ _
      · have := ih (c :: seen)
        rw [List.reverse_cons, List.append_assoc]
        exact this

theorem Ext_suffix (path : GoString) : Ext path <:+ path := by
  have := extScan_suffix path.reverse []
  rwa [List.reverse_reverse, List.append_nil] at this

theorem TrimSuffix_Ext (path : GoString) :
    TrimSuffix path (Ext path) = path.take (path.length - (Ext path).length) := by
  rw [TrimSuffix, if_pos ((HasSuffix_iff _ _).mpr (Ext_suffix path))]

theorem candidateStem_congr {tbl : Char → Char} {s t : GoString} (h : CaseVariant tbl s t) :
    candidateStem tbl s = candidateStem tbl t := by
  have hb := Base_congr h
  have he := Ext_congr hb
  unfold candidateStem
  rw [TrimSuffix_Ext, TrimSuffix_Ext, hb.length_eq, he.length_eq]
  exact CaseVariant_ToLower (List.forall₂_take _ hb)

/-- Candidates that differ at most in letter case are matched alike. -/
theorem firstMatchingBin_congr {tbl : Char → Char} (term : GoString) {bins bins' : List GoString}
    (h : List.Forall₂ (CaseVariant tbl) bins bins') :
    (firstMatchingBin tbl term bins).isSome = (firstMatchingBin tbl term bins').isSome := by
  induction h with
  | nil => rfl
  | cons hc _ ih =>
    have hstem := candidateStem_congr hc
    simp only [candidateStem] at hstem
    simp only [firstMatchingBin, hstem]
    split
    · rfl
    · exact ih

/-- The loop body sees the name of a manifest only through its lower-case form. -/
theorem fileStep_stem_congr (tbl : Char → Char) (term stem stem' : GoString)
    (content : FileContent) (h : ToLower tbl stem = ToLower tbl stem') :
    fileStep tbl term ⟨stem' ++ ".json".toList, content⟩ =
      (fileStep tbl term ⟨stem ++ ".json".toList, content⟩).map
        (List.map (fun m => { m with name := stem' })) := by
  have hj : ∀ st : GoString, HasSuffix (st ++ ".json".toList) ".json".toList = true :=
    fun st => (HasSuffix_iff _ _).mpr (List.suffix_append _ _)
  have hlow : ToLower tbl (stem' ++ ".json".toList) = ToLower tbl (stem ++ ".json".toList) := by
    rw [ToLower_append, ToLower_append, h]
  cases content with
  | unreadable =>
    rw [@fileStep_unreadable tbl term ⟨stem' ++ ".json".toList, .unreadable⟩ (hj _) rfl,
      @fileStep_unreadable tbl term ⟨stem ++ ".json".toList, .unreadable⟩ (hj _) rfl]
    rfl
  | read result =>
    cases hn : Contains (ToLower tbl (stem ++ ".json".toList)) term with
    | true =>
      rw [@fileStep_name tbl term ⟨stem' ++ ".json".toList, .read result⟩ _ (hj _) rfl
          (by rw [hlow]; exact hn),
        @fileStep_name tbl term ⟨stem ++ ".json".toList, .read result⟩ _ (hj _) rfl hn]
      simp only [Except.map, List.map_cons, List.map_nil, manifestName_append_json]
    | false =>
      cases hb : Value.Get result "bin".toList with
      | none =>
        have e1 : fileStep tbl term ⟨stem' ++ ".json".toList, .read result⟩ = .ok [] := by
          simp only [fileStep, scanFiles, hlow, hn, hb]
          split <;> simp
        have e2 : fileStep tbl term ⟨stem ++ ".json".toList, .read result⟩ = .ok [] := by
          simp only [fileStep, scanFiles, hn, hb]
          split <;> simp
        rw [e1, e2]
        rfl
      | some bin =>
        cases hd : decodeBin bin with
        | error e =>
          have e1 : fileStep tbl term ⟨stem' ++ ".json".toList, .read result⟩ = .error e := by
            simp only [fileStep, scanFiles, hlow, hn, hb, hd]
            split <;> simp_all
          have e2 : fileStep tbl term ⟨stem ++ ".json".toList, .read result⟩ = .error e := by
            simp only [fileStep, scanFiles, hn, hb, hd]
            split <;> simp_all
          rw [e1, e2]
          rfl
        | ok bins =>
          rw [@fileStep_bin tbl term ⟨stem' ++ ".json".toList, .read result⟩ _ _ _ (hj _) rfl
              (by rw [hlow]; exact hn) hb hd,
            @fileStep_bin tbl term ⟨stem ++ ".json".toList, .read result⟩ _ _ _ (hj _) rfl hn hb hd]
          cases firstMatchingBin tbl term bins <;>
            simp only [Except.map, List.map_cons, List.map_nil, manifestName_append_json]

theorem Except_map_ok_singleton_iff {ε α β : Type} (f : α → β) (x : Except ε (List α)) :
    (∃ m, x.map (List.map f) = .ok [m]) ↔ ∃ m, x = .ok [m] := by
  cases x with
  | error e => simp [Except.map]
  | ok l =>
    cases l with
    | nil => simp [Except.map]
    | cons a l =>
      cases l with
      | nil => simp [Except.map]
      | cons b l => simp [Except.map]

/-- Manifests with one name whose candidates differ at most in letter case match
alike. -/
theorem fileStep_bins_congr (tbl : Char → Char) (term name : GoString)
    (result result' : Option Value) (bin bin' : Value) (bins bins' : List GoString)
    (hb : Value.Get result "bin".toList = some bin) (hd : decodeBin bin = .ok bins)
    (hb' : Value.Get result' "bin".toList = some bin') (hd' : decodeBin bin' = .ok bins')
    (hv : List.Forall₂ (CaseVariant tbl) bins bins') :
    (∃ m, fileStep tbl term ⟨name, .read result⟩ = .ok [m]) ↔
      ∃ m, fileStep tbl term ⟨name, .read result'⟩ = .ok [m] := by
  cases hj : HasSuffix name ".json".toList with
  | false =>
    have e : ∀ r, fileStep tbl term ⟨name, .read r⟩ = .ok [] := by
      intro r
      simp only [fileStep, scanFiles, hj, Bool.not_false, if_true]
    simp [e]
  | true =>
    cases hn : Contains (ToLower tbl name) term with
    | true =>
      rw [@fileStep_name tbl term ⟨name, .read result⟩ _ hj rfl hn,
        @fileStep_name tbl term ⟨name, .read result'⟩ _ hj rfl hn]
      simp
    | false =>
      rw [@fileStep_bin tbl term ⟨name, .read result⟩ _ _ _ hj rfl hn hb hd,
        @fileStep_bin tbl term ⟨name, .read result'⟩ _ _ _ hj rfl hn hb' hd']
      have hsome := firstMatchingBin_congr term hv
      cases h1 : firstMatchingBin tbl term bins <;>
        cases h2 : firstMatchingBin tbl term bins' <;>
        simp_all

/-- Writes under distinct bucket names, made in any order, leave a map with exactly the
written keys, each holding the value written under it. -/
theorem aggregate_entries (writes order : List (GoString × List Match))
    (hperm : order.Perm writes) (hkeys : (writes.map Prod.fst).Nodup) :
    ((aggregate order).map Prod.fst).Perm (writes.map Prod.fst) ∧
    ∀ w ∈ writes, mapGet (aggregate order) w.1 = w.2 := by
  have hkeys' : (order.map Prod.fst).Nodup := (hperm.map _).nodup_iff.mpr hkeys
  rw [aggregate_distinct order hkeys']
  exact ⟨hperm.map _, fun w hw => mapGet_of_mem hkeys' (hperm.mem_iff.mpr hw)⟩

/-- With a match in some bucket the text is the concatenation of the bucket sections. -/
theorem printResults_renders (data : matchMap) (hkeys : (data.map Prod.fst).Nodup)
    (hsome : ∃ e ∈ data, e.2 ≠ []) : RendersSections data (printResults data).1 := by
  refine ⟨shownBuckets data, shownBuckets_perm data hkeys, shownBuckets_ascending data hkeys, ?_⟩
  have hne : (shownBuckets data).isEmpty = false := by
    rw [← Bool.not_eq_true, shownBuckets_isEmpty data hkeys]
    push_neg
    exact hsome
  rw [printResults_eq, hne]
  simp

/-! ## Claims -/

/-- C1: a manifest whose file-name stem contains the term (case-insensitively) is in the
result of `matchingManifests`, under its stem, with its declared version and an empty
`bin`. -/
theorem name_match_is_listed (tbl : Char → Char) (files : List DirEntry) (term : GoString)
    (res : List Match) (hres : matchingManifests tbl files term = .ok res)
    (file : DirEntry) (hfile : file ∈ files) (stem : GoString)
    (hname : file.name = stem ++ ".json".toList)
    (hstem : Contains (ToLower tbl stem) (ToLower tbl term) = true) :
    ∃ result, file.content = .read result ∧
      (⟨stem, Value.GetStringBytes result "version".toList, []⟩ : Match) ∈ res := by
  obtain ⟨collected, hscan, rfl⟩ := matchingManifests_ok hres
  have hj : HasSuffix file.name ".json".toList = true := by
    rw [HasSuffix_iff, hname]
    exact List.suffix_append _ _
  have hc : Contains (ToLower tbl file.name) (ToLower tbl term) = true := by
    rw [Contains_iff] at hstem ⊢
    rw [hname, ToLower_append]
    exact hstem.trans (List.prefix_append _ _).isInfix
  obtain ⟨result, hr, hm⟩ := scanFiles_name_mem hscan hfile hj hc
  rw [hname, manifestName_append_json] at hm
  exact ⟨result, hr, (SliceStable_perm _ _).mem_iff.mpr hm⟩

theorem name_match_is_listed_witness :
    ∃ result, (jsonFile "curl.json" curlManifest).content = .read result ∧
      (⟨"curl".toList, Value.GetStringBytes result "version".toList, []⟩ : Match) ∈
        [(⟨"curl".toList, "8.0".toList, []⟩ : Match)] :=
  name_match_is_listed id mainBucket "cur".toList _ rfl (jsonFile "curl.json" curlManifest)
    (List.mem_cons_of_mem _ (List.mem_cons_self _ _)) "curl".toList rfl rfl

/-- C4: when `matchingManifests` returns, every manifest has contributed at most one
match: the result names are, up to order, picked from the stems of the `.json` files, each
file used at most once; so the result is no longer than the number of `.json` files, every
result name with `.json` appended is the name of a file of the listing, and with distinct
file names the result names are distinct. -/
theorem at_most_one_match_per_manifest (tbl : Char → Char) (files : List DirEntry)
    (term : GoString) (res : List Match) (hres : matchingManifests tbl files term = .ok res) :
    (res.map Match.name).Subperm (manifestStems files) ∧
    res.length ≤ (files.filter (fun f => HasSuffix f.name ".json".toList)).length ∧
    (∀ m ∈ res, ∃ f ∈ files, f.name = m.name ++ ".json".toList) ∧
    ((files.map DirEntry.name).Nodup → (res.map Match.name).Nodup) := by
  obtain ⟨collected, hscan, rfl⟩ := matchingManifests_ok hres
  have hperm := SliceStable_perm (lessByName tbl) collected
  have hsub := scanFiles_names_sublist hscan
  refine ⟨(hperm.map _).subperm.trans hsub.subperm, ?_, ?_, ?_⟩
  · have h1 := hsub.length_le
    rw [hperm.length_eq]
    simpa [manifestStems] using h1
  · intro m hm
    have hm' : m.name ∈ manifestStems files :=
      hsub.subset (List.mem_map_of_mem _ (hperm.mem_iff.mp hm))
    simp only [manifestStems, List.mem_map, List.mem_filter] at hm'
    obtain ⟨f, ⟨hf, hj⟩, hfm⟩ := hm'
    exact ⟨f, hf, by rw [← hfm]; exact name_eq_of_HasSuffix hj⟩
  · intro hnd
    have h1 : ((files.filter (fun f => HasSuffix f.name ".json".toList)).map
        DirEntry.name).Nodup :=
      hnd.sublist ((List.filter_sublist _).map _)
    have h2 : (manifestStems files).Nodup := by
      have : manifestStems files =
          ((files.filter (fun f => HasSuffix f.name ".json".toList)).map
            DirEntry.name).map manifestName := by
        simp [manifestStems, List.map_map, Function.comp_def]
      rw [this]
      refine List.Nodup.map_on ?_ h1
      intro a ha b hb hab
      simp only [List.mem_map, List.mem_filter] at ha hb
      obtain ⟨fa, ⟨-, hja⟩, rfl⟩ := ha
      obtain ⟨fb, ⟨-, hjb⟩, rfl⟩ := hb
      rw [name_eq_of_HasSuffix hja, name_eq_of_HasSuffix hjb, hab]
    exact (hperm.map _).nodup_iff.mpr (h2.sublist hsub)

theorem at_most_one_match_per_manifest_witness :
    ([(⟨"curl".toList, "8.0".toList, []⟩ : Match)].map Match.name).Subperm
      (manifestStems mainBucket) ∧
    [(⟨"curl".toList, "8.0".toList, []⟩ : Match)].length ≤
      (mainBucket.filter (fun f => HasSuffix f.name ".json".toList)).length ∧
    (∀ m ∈ [(⟨"curl".toList, "8.0".toList, []⟩ : Match)],
      ∃ f ∈ mainBucket, f.name = m.name ++ ".json".toList) ∧
    ((mainBucket.map DirEntry.name).Nodup →
      ([(⟨"curl".toList, "8.0".toList, []⟩ : Match)].map Match.name).Nodup) :=
  at_most_one_match_per_manifest id mainBucket "cur".toList _ rfl

/-- C5: the list returned by `matchingManifests` is a permutation of the matches
collected in discovery order, in non-decreasing order of the lower-cased name, and the
matches with one and the same lower-cased name keep their discovery order. -/
theorem result_is_stably_sorted (tbl : Char → Char) (files : List DirEntry) (term : GoString)
    (collected : List Match) (hcol : collectMatches tbl files term = .ok collected) :
    ∃ res, matchingManifests tbl files term = .ok res ∧ res.Perm collected ∧
      res.Pairwise (fun a b => stringLess (ToLower tbl b.name) (ToLower tbl a.name) = false) ∧
      ∀ key : GoString, res.filter (fun m => decide (ToLower tbl m.name = key)) =
        collected.filter (fun m => decide (ToLower tbl m.name = key)) := by
  refine ⟨SliceStable (lessByName tbl) collected, ?_, SliceStable_perm _ _, ?_, ?_⟩
  · simp [matchingManifests, hcol]
  · exact SliceStable_sorted (lessByName tbl) (fun a b h => stringLess_asymm h)
      (fun a b c h1 h2 => stringLess_negtrans h1 h2) collected
  · intro key
    refine SliceStable_filter (lessByName tbl) _ ?_ collected
    intro a b ha hb
    have ha' : ToLower tbl a.name = key := of_decide_eq_true ha
    have hb' : ToLower tbl b.name = key := of_decide_eq_true hb
    simp only [lessByName, ha', hb']
    exact stringLess_irrefl key

theorem result_is_stably_sorted_witness :
    ∃ res, matchingManifests id mixedCaseBucket [] = .ok res ∧
      res.Perm [⟨"Zip".toList, [], []⟩, ⟨"curl".toList, "8.0".toList, []⟩,
        ⟨"git".toList, "2.40".toList, []⟩] ∧
      res.Pairwise (fun a b => stringLess (ToLower id b.name) (ToLower id a.name) = false) ∧
      ∀ key : GoString, res.filter (fun m => decide (ToLower id m.name = key)) =
        [(⟨"Zip".toList, [], []⟩ : Match), ⟨"curl".toList, "8.0".toList, []⟩,
          ⟨"git".toList, "2.40".toList, []⟩].filter (fun m => decide (ToLower id m.name = key)) :=
  result_is_stably_sorted id mixedCaseBucket [] _ rfl

/-- C2: `tool.json` declares the executable `json-tool.exe`; its stem `tool` does not
contain the term `json` and the first (only) candidate does, but the file name
`tool.json` contains the term, so the manifest is listed by name with an empty `bin`
instead of the executable. -/
theorem bin_match_lost_to_extension (tbl : Char → Char) :
    Contains (ToLower tbl "tool".toList) (ToLower tbl "json".toList) = false ∧
    decodeBin (.string "json-tool.exe".toList) = .ok ["json-tool.exe".toList] ∧
    firstMatchingBin tbl (ToLower tbl "json".toList) ["json-tool.exe".toList] =
      some "json-tool.exe".toList ∧
    matchingManifests tbl [jsonToolFile] "json".toList = .ok [⟨"tool".toList, [], []⟩] :=
  ⟨rfl, rfl, rfl, rfl⟩

/-- C3: `git.json` declares no `bin` and its stem `git` does not contain the term
`json`, yet it is returned as a name match, because the term is looked up in the file
name with its extension. -/
theorem extension_matches_by_name (tbl : Char → Char) :
    Contains (ToLower tbl "git".toList) (ToLower tbl "json".toList) = false ∧
    Value.Get (some gitManifest) "bin".toList = none ∧
    matchingManifests tbl [jsonFile "git.json" gitManifest] "json".toList =
      .ok [⟨"git".toList, "2.40".toList, []⟩] :=
  ⟨rfl, rfl, rfl⟩

/-- C7: a nested array with a single string, `"bin": [["real.exe"]]`, is indexed at
position 1 and the run panics instead of decoding to the one candidate. -/
theorem single_element_nested_array_panics (tbl : Char → Char) :
    decodeBin (.array [.array [.string "real.exe".toList]]) = .error (.indexOutOfRange 1 1) ∧
    matchingManifests tbl
        [jsonFile "tool.json"
          (.object [("bin".toList, .array [.array [.string "real.exe".toList]])])]
        "real".toList = .error (.indexOutOfRange 1 1) :=
  ⟨rfl, rfl⟩

/-- A `tool.json` with `"bin": null` and a term that its name does not contain: the run
aborts with the bad-manifest message, whatever the case table. -/
theorem null_bin_aborts (tbl : Char → Char) :
    Contains (ToLower tbl "tool.json".toList) (ToLower tbl "zip".toList) = false ∧
    Value.Get (some (.object [("bin".toList, .null)])) "bin".toList = some .null ∧
    matchingManifests tbl [jsonFile "tool.json" (.object [("bin".toList, .null)])]
      "zip".toList = .error (.fatal badManifestErrMsg) :=
  ⟨rfl, rfl, rfl⟩

/-- C6 (as stated, refuted): `tool.json` with `"bin": null` and a term that its name does
not contain aborts the run with the bad-manifest message. (All text is ASCII, so the case
table, here the identity, is not consulted.) -/
theorem null_bin_is_fatal :
    Contains (ToLower id "tool.json".toList) (ToLower id "zip".toList) = false ∧
    Value.Get (some (.object [("bin".toList, .null)])) "bin".toList = some .null ∧
    matchingManifests id [jsonFile "tool.json" (.object [("bin".toList, .null)])]
      "zip".toList = .error (.fatal badManifestErrMsg) :=
  null_bin_aborts id

/-- C6 (amended): a manifest whose file name does not contain the lower-cased term and
which has no `bin` member adds no match and causes no abort: the run is the same as on
the listing without it. -/
theorem absent_bin_contributes_nothing (tbl : Char → Char) (pre post : List DirEntry)
    (file : DirEntry) (term : GoString) (result : Option Value)
    (hread : file.content = .read result)
    (hname : Contains (ToLower tbl file.name) (ToLower tbl term) = false)
    (hbin : Value.Get result "bin".toList = none) :
    scanFiles tbl (ToLower tbl term) [file] [] = .ok [] ∧
    matchingManifests tbl (pre ++ file :: post) term =
      matchingManifests tbl (pre ++ post) term := by
  have hstep : fileStep tbl (ToLower tbl term) file = .ok [] := by
    simp only [fileStep, scanFiles, hread, hname, hbin]
    split <;> simp
  exact ⟨hstep, matchingManifests_skip hstep pre post⟩

theorem absent_bin_contributes_nothing_witness :
    scanFiles id (ToLower id "cur".toList) [jsonFile "git.json" gitManifest] [] = .ok [] ∧
    matchingManifests id ([jsonFile "curl.json" curlManifest] ++
        jsonFile "git.json" gitManifest :: []) "cur".toList =
      matchingManifests id ([jsonFile "curl.json" curlManifest] ++ []) "cur".toList :=
  absent_bin_contributes_nothing id [jsonFile "curl.json" curlManifest] []
    (jsonFile "git.json" gitManifest) "cur".toList (some gitManifest) rfl rfl rfl

/-- A manifest `bad.json` whose content is not JSON and a term that its name contains:
the run returns it as a match, whatever the case table. -/
theorem unparseable_manifest_returns (tbl : Char → Char) :
    matchingManifests tbl [⟨"bad.json".toList, .read none⟩] "bad".toList =
      .ok [⟨"bad".toList, [], []⟩] :=
  rfl

/-- C8 (as stated, refuted): a manifest `bad.json` whose content is not JSON does not
abort the run; with a term its name contains it is even returned as a match. (All text
is ASCII, so the case table, here the identity, is not consulted.) -/
theorem unparseable_manifest_is_listed :
    matchingManifests id [⟨"bad.json".toList, .read none⟩] "bad".toList =
      .ok [⟨"bad".toList, [], []⟩] :=
  unparseable_manifest_returns id

/-- C8 (amended): a manifest whose content cannot be parsed is handled like the empty
object `{}`, a manifest that declares neither a version nor a `bin`. -/
theorem unparseable_manifest_as_empty (tbl : Char → Char) (pre post : List DirEntry)
    (name term : GoString) :
    matchingManifests tbl (pre ++ ⟨name, .read none⟩ :: post) term =
      matchingManifests tbl (pre ++ ⟨name, .read (some (.object []))⟩ :: post) term :=
  matchingManifests_congr (by simp [fileStep, scanFiles, Value.GetStringBytes, Value.Get, objectGet])
    pre post

/-- A `tool.json` with `"bin": 5` and a term found in its file name: the run returns,
whatever the case table. -/
theorem malformed_bin_returns (tbl : Char → Char) :
    MalformedBin (.number "5".toList) ∧
    matchingManifests tbl [jsonFile "tool.json" (.object [("bin".toList, .number "5".toList)])]
      "tool".toList = .ok [⟨"tool".toList, [], []⟩] :=
  ⟨Or.inl ⟨rfl, rfl⟩, rfl⟩

/-- C9 (as stated, refuted): `tool.json` with `"bin": 5` does not abort the run when the
term is found in its file name; the `bin` member is then not looked at. (All text is
ASCII, so the case table, here the identity, is not consulted.) -/
theorem malformed_bin_unseen_on_name_match :
    MalformedBin (.number "5".toList) ∧
    matchingManifests id [jsonFile "tool.json" (.object [("bin".toList, .number "5".toList)])]
      "tool".toList = .ok [⟨"tool".toList, [], []⟩] :=
  malformed_bin_returns id

/-- C9 (amended): a readable, parseable manifest whose file name does not contain the
lower-cased term and whose `bin` member is malformed (`MalformedBin`) makes the run
abort, whatever follows it in the listing; the abort is the bad-manifest message when
the entries before it are scanned without abort. -/
theorem malformed_bin_is_fatal (tbl : Char → Char) (pre post : List DirEntry)
    (file : DirEntry) (term : GoString) (v bin : Value)
    (hjson : HasSuffix file.name ".json".toList = true)
    (hread : file.content = .read (some v))
    (hname : Contains (ToLower tbl file.name) (ToLower tbl term) = false)
    (hbin : Value.Get (some v) "bin".toList = some bin) (hbad : MalformedBin bin) :
    (∃ e, matchingManifests tbl (pre ++ file :: post) term = .error e) ∧
    ∀ mid, scanFiles tbl (ToLower tbl term) pre [] = .ok mid →
      matchingManifests tbl (pre ++ file :: post) term = .error (.fatal badManifestErrMsg) := by
  have hstep : fileStep tbl (ToLower tbl term) file = .error (.fatal badManifestErrMsg) := by
    simp only [fileStep, scanFiles, hread, hname, hbin, decodeBin_malformed hbad]
    split <;> simp_all
  exact matchingManifests_abort hstep pre post

theorem malformed_bin_is_fatal_witness :
    (∃ e, matchingManifests id ([jsonFile "curl.json" curlManifest] ++
        jsonFile "tool.json"
          (.object [("bin".toList, .array [.string "a.exe".toList, .number "5".toList])])
        :: [jsonFile "git.json" gitManifest]) "cur".toList = .error e) ∧
    ∀ mid, scanFiles id (ToLower id "cur".toList) [jsonFile "curl.json" curlManifest] [] =
        .ok mid →
      matchingManifests id ([jsonFile "curl.json" curlManifest] ++
        jsonFile "tool.json"
          (.object [("bin".toList, .array [.string "a.exe".toList, .number "5".toList])])
        :: [jsonFile "git.json" gitManifest]) "cur".toList =
        .error (.fatal badManifestErrMsg) :=
  malformed_bin_is_fatal id [jsonFile "curl.json" curlManifest]
    [jsonFile "git.json" gitManifest]
    (jsonFile "tool.json"
      (.object [("bin".toList, .array [.string "a.exe".toList, .number "5".toList])]))
    "cur".toList _ (.array [.string "a.exe".toList, .number "5".toList]) rfl rfl rfl rfl
    (Or.inr ⟨[.string "a.exe".toList], .number "5".toList, [], rfl,
      fun x hx => by
        rw [List.mem_singleton] at hx
        subst hx
        exact True.intro,
      rfl, rfl⟩)

/-- C10 (as stated, refuted): for the empty mapping the text written is not the (empty)
concatenation of bucket sections. -/
theorem empty_report_is_not_sections : ¬ RendersSections [] (printResults []).1 := by
  rintro ⟨shown, hperm, -, htext⟩
  rw [List.filter_nil] at hperm
  rw [List.perm_nil.mp hperm] at htext
  exact absurd htext (by decide)

/-- C10 (amended): when some bucket has a match, the text written by `printResults` is
the concatenation of the sections of the buckets with matches, in ascending order of
their names; when no bucket has a match, the text is `No matches found.`. -/
theorem printResults_text (data : matchMap) (hkeys : (data.map Prod.fst).Nodup) :
    ((∃ e ∈ data, e.2 ≠ []) → RendersSections data (printResults data).1) ∧
    ((∀ e ∈ data, e.2 = []) → (printResults data).1 = "No matches found.".toList) := by
  refine ⟨printResults_renders data hkeys, fun hall => ?_⟩
  rw [printResults_eq, List.isEmpty_iff.mp ((shownBuckets_isEmpty data hkeys).mpr hall)]
  rfl

theorem printResults_text_witness :
    (twoBuckets.map Prod.fst).Nodup ∧
    (printResults twoBuckets).1 =
      "'extras' bucket:\n    tool (1.2) --> includes 'alt.exe'\n\n'main' bucket:\n    curl (8.0)\n\n".toList ∧
    ((∃ e ∈ twoBuckets, e.2 ≠ []) → RendersSections twoBuckets (printResults twoBuckets).1) ∧
    ((∀ e ∈ twoBuckets, e.2 = []) →
      (printResults twoBuckets).1 = "No matches found.".toList) :=
  ⟨by decide, by decide, printResults_text twoBuckets (by decide)⟩

/-- C11: `printResults` returns true exactly when some bucket has a match; when no bucket
has one the whole text is `No matches found.` and the result is false; when some bucket
has one the text is the concatenation of the bucket sections, as written by the loop,
with no message appended. -/
theorem printResults_signal (data : matchMap) (hkeys : (data.map Prod.fst).Nodup) :
    ((printResults data).2 = true ↔ ∃ e ∈ data, e.2 ≠ []) ∧
    ((∀ e ∈ data, e.2 = []) → printResults data = ("No matches found.".toList, false)) ∧
    ((∃ e ∈ data, e.2 ≠ []) →
      RendersSections data (printResults data).1 ∧
      (printResults data).1 =
        (writeBuckets data (sortStrings (data.map Prod.fst)) ([], false)).1) := by
  have hempty := shownBuckets_isEmpty data hkeys
  refine ⟨?_, ?_, ?_⟩
  · rw [printResults_eq]
    show (!(shownBuckets data).isEmpty) = true ↔ _
    rw [Bool.not_eq_true', ← Bool.not_eq_true, hempty]
    push_neg
    rfl
  · intro hall
    rw [printResults_eq, hempty.mpr hall, List.isEmpty_iff.mp (hempty.mpr hall)]
    rfl
  · intro hsome
    have hne : (shownBuckets data).isEmpty = false := by
      rw [← Bool.not_eq_true, hempty]
      push_neg
      exact hsome
    refine ⟨printResults_renders data hkeys hsome, ?_⟩
    rw [printResults_eq, writeBuckets_eq, hne]
    simp [shownBuckets]

theorem printResults_signal_witness :
    printResults emptyBuckets = ("No matches found.".toList, false) ∧
    ((printResults emptyBuckets).2 = true ↔ ∃ e ∈ emptyBuckets, e.2 ≠ []) ∧
    ((∀ e ∈ emptyBuckets, e.2 = []) →
      printResults emptyBuckets = ("No matches found.".toList, false)) ∧
    ((∃ e ∈ emptyBuckets, e.2 ≠ []) →
      RendersSections emptyBuckets (printResults emptyBuckets).1 ∧
      (printResults emptyBuckets).1 =
        (writeBuckets emptyBuckets (sortStrings (emptyBuckets.map Prod.fst)) ([], false)).1) :=
  ⟨by decide, printResults_signal emptyBuckets (by decide)⟩

/-- C12: two sequences of writes of the same pairs under distinct bucket names, in any
two orders, give the same text and the same boolean. -/
theorem report_independent_of_insertion_order (w1 w2 : List (GoString × List Match))
    (hperm : w1.Perm w2) (hkeys : (w1.map Prod.fst).Nodup) :
    printResults (aggregate w1) = printResults (aggregate w2) := by
  have hkeys2 : (w2.map Prod.fst).Nodup := (hperm.map _).nodup_iff.mp hkeys
  rw [aggregate_distinct w1 hkeys, aggregate_distinct w2 hkeys2]
  exact printResults_congr hperm hkeys

theorem report_independent_of_insertion_order_witness :
    printResults (aggregate twoBuckets) = printResults (aggregate twoBuckets.reverse) :=
  report_independent_of_insertion_order twoBuckets twoBuckets.reverse
    (List.reverse_perm twoBuckets).symm (by decide)

/-- C13: the entries whose names do not end in `.json` are ignored: the outcome is that
of the listing without them, and it is the same when each of them is unreadable. -/
theorem non_manifests_are_ignored (tbl : Char → Char) (files : List DirEntry)
    (term : GoString) :
    matchingManifests tbl files term =
      matchingManifests tbl (files.filter (fun f => HasSuffix f.name ".json".toList)) term ∧
    matchingManifests tbl files term =
      matchingManifests tbl (files.map hideNonManifest) term := by
  have h1 : ∀ fs, matchingManifests tbl fs term =
      matchingManifests tbl (fs.filter (fun f => HasSuffix f.name ".json".toList)) term := by
    intro fs
    simp only [matchingManifests, collectMatches]
    rw [scanFiles_filter_json]
  refine ⟨h1 files, ?_⟩
  rw [h1 files, h1 (files.map hideNonManifest), filter_json_hideNonManifest]

/-- Under every case table that lowers the Kelvin sign to `k`, the executable name
`K:foo.exe` written with the Kelvin sign matches the term `k` and its lower-case form
`k:foo.exe` does not. -/
theorem kelvin_sign_under_any_table (tbl : Char → Char) (h : tbl (Char.ofNat 0x212A) = 'k') :
    ToLower tbl kelvinName = "k:foo.exe".toList ∧
    matchingManifests tbl [toolWithBin kelvinName] "k".toList =
      .ok [⟨"tool".toList, [], kelvinName⟩] ∧
    matchingManifests tbl [toolWithBin "k:foo.exe".toList] "k".toList = .ok [] := by
  have hg : tbl = fun r => if r = Char.ofNat 0x212A then 'k' else tbl r := by
    funext r
    split
    next hr => rw [hr, h]
    next => rfl
  obtain ⟨g, rfl⟩ : ∃ g : Char → Char,
      tbl = fun r => if r = Char.ofNat 0x212A then 'k' else g r := ⟨tbl, hg⟩
  exact ⟨rfl, rfl, rfl⟩

/-- C14 (as stated, refuted): with a case table that lowers the Kelvin sign to `k`, as
the table of Unicode does, the executable name `K:foo.exe` written with the Kelvin sign
matches the term `k`, while its lower-case form `k:foo.exe`, whose `k:` is a drive letter
that the base name drops, does not. (The other runes are ASCII, for which the table is
not consulted.) -/
theorem kelvin_sign_case_changes_match :
    ToLower kelvinTable kelvinName = "k:foo.exe".toList ∧
    matchingManifests kelvinTable [toolWithBin kelvinName] "k".toList =
      .ok [⟨"tool".toList, [], kelvinName⟩] ∧
    matchingManifests kelvinTable [toolWithBin "k:foo.exe".toList] "k".toList = .ok [] :=
  kelvin_sign_under_any_table kelvinTable rfl

/-- C14 (amended): two terms with the same lower-case form give the same outcome on every
listing; a manifest matches or not regardless of the letter case of its file-name stem
(stems with the same lower-case form); and it matches or not regardless of the letter case
of its executable names, when the case is changed rune by rune and ASCII runes stay
ASCII. -/
theorem matching_ignores_letter_case (tbl : Char → Char) :
    (∀ files t1 t2, ToLower tbl t1 = ToLower tbl t2 →
      matchingManifests tbl files t1 = matchingManifests tbl files t2) ∧
    (∀ term stem stem' content, ToLower tbl stem = ToLower tbl stem' →
      ((∃ m, scanFiles tbl term [⟨stem ++ ".json".toList, content⟩] [] = .ok [m]) ↔
        ∃ m, scanFiles tbl term [⟨stem' ++ ".json".toList, content⟩] [] = .ok [m])) ∧
    (∀ term name result result' bin bin' bins bins',
      Value.Get result "bin".toList = some bin → decodeBin bin = .ok bins →
      Value.Get result' "bin".toList = some bin' → decodeBin bin' = .ok bins' →
      List.Forall₂ (CaseVariant tbl) bins bins' →
      ((∃ m, scanFiles tbl term [⟨name, .read result⟩] [] = .ok [m]) ↔
        ∃ m, scanFiles tbl term [⟨name, .read result'⟩] [] = .ok [m])) := by
  refine ⟨?_, ?_, ?_⟩
  · intro files t1 t2 h
    simp only [matchingManifests, collectMatches, h]
  · intro term stem stem' content h
    have e := fileStep_stem_congr tbl term stem stem' content h
    simp only [fileStep] at e
    rw [e, Except_map_ok_singleton_iff]
  · intro term name result result' bin bin' bins bins' hb hd hb' hd' hv
    exact fileStep_bins_congr tbl term name result result' bin bin' bins bins' hb hd hb' hd' hv

theorem matching_ignores_letter_case_witness :
    matchingManifests id mainBucket "CUR".toList = matchingManifests id mainBucket "cur".toList ∧
    ((∃ m, scanFiles id "cur".toList
        [⟨"Curl".toList ++ ".json".toList, .read (some curlManifest)⟩] [] = .ok [m]) ↔
      ∃ m, scanFiles id "cur".toList
        [⟨"curl".toList ++ ".json".toList, .read (some curlManifest)⟩] [] = .ok [m]) ∧
    ((∃ m, scanFiles id "alt".toList
        [⟨"tool.json".toList,
          .read (some (.object [("bin".toList, .string "Alt.EXE".toList)]))⟩] [] = .ok [m]) ↔
      ∃ m, scanFiles id "alt".toList
        [⟨"tool.json".toList,
          .read (some (.object [("bin".toList, .string "alt.exe".toList)]))⟩] [] = .ok [m]) :=
  ⟨(matching_ignores_letter_case id).1 mainBucket "CUR".toList "cur".toList rfl,
    (matching_ignores_letter_case id).2.1 "cur".toList "Curl".toList "curl".toList
      (.read (some curlManifest)) rfl,
    (matching_ignores_letter_case id).2.2 "alt".toList "tool.json".toList
      (some (.object [("bin".toList, .string "Alt.EXE".toList)]))
      (some (.object [("bin".toList, .string "alt.exe".toList)]))
      (.string "Alt.EXE".toList) (.string "alt.exe".toList)
      ["Alt.EXE".toList] ["alt.exe".toList] rfl rfl rfl rfl
      (List.Forall₂.cons
        (by
          show List.Forall₂ (sameLetter id) "Alt.EXE".toList "alt.exe".toList
          repeat first
            | exact List.Forall₂.nil
            | refine List.Forall₂.cons ⟨rfl, by decide⟩ ?_)
        List.Forall₂.nil)⟩

/-- C16: a `bin` string is its own single candidate; a `bin` array of strings and nested
arrays of at least two strings decodes to, in order, each string and the first two
elements of each nested array; the third and later elements of a nested array are
ignored, the candidates being those of the array without them, so that the term `flag`
does not match the manifest whose `bin` is `["a.exe", ["b.exe", "b-alias.exe", "--flag"]]`. -/
theorem bin_candidates (tbl : Char → Char) (s : GoString) (a : List Value)
    (ha : ∀ e ∈ a, StringOrStrings e) :
    decodeBin (.string s) = .ok [s] ∧
    decodeBin (.array a) = .ok (a.map elementCandidates).flatten ∧
    decodeBin (.array (a.map dropFlags)) = decodeBin (.array a) ∧
    decodeBin flaggedBin = .ok ["a.exe".toList, "b.exe".toList, "b-alias.exe".toList] ∧
    matchingManifests tbl [jsonFile "tool.json" (.object [("bin".toList, flaggedBin)])]
      "flag".toList = .ok [] := by
  have h1 : decodeBin (.array a) = .ok (a.map elementCandidates).flatten := by
    simp only [decodeBin, decodeArray_eq a [] ha, List.nil_append]
  have h2 : decodeBin (.array (a.map dropFlags)) = .ok (a.map elementCandidates).flatten := by
    have ha' : ∀ e ∈ a.map dropFlags, StringOrStrings e := by
      intro e he
      obtain ⟨x, hx, rfl⟩ := List.mem_map.mp he
      exact StringOrStrings_dropFlags (ha x hx)
    simp only [decodeBin, decodeArray_eq _ [] ha', List.nil_append, List.map_map]
    congr 2
    exact List.map_congr_left fun e _ => elementCandidates_dropFlags e
  exact ⟨rfl, h1, h2.trans h1.symm, rfl, rfl⟩

theorem bin_candidates_witness :
    decodeBin (.string "curl.exe".toList) = .ok ["curl.exe".toList] ∧
    decodeBin (.array [.string "a.exe".toList,
        .array [.string "b.exe".toList, .string "b-alias.exe".toList, .string "--flag".toList]]) =
      .ok ([Value.string "a.exe".toList,
        .array [.string "b.exe".toList, .string "b-alias.exe".toList,
          .string "--flag".toList]].map elementCandidates).flatten ∧
    decodeBin (.array ([Value.string "a.exe".toList,
        .array [.string "b.exe".toList, .string "b-alias.exe".toList,
          .string "--flag".toList]].map dropFlags)) =
      decodeBin (.array [.string "a.exe".toList,
        .array [.string "b.exe".toList, .string "b-alias.exe".toList, .string "--flag".toList]]) ∧
    decodeBin flaggedBin = .ok ["a.exe".toList, "b.exe".toList, "b-alias.exe".toList] ∧
    matchingManifests id [jsonFile "tool.json" (.object [("bin".toList, flaggedBin)])]
      "flag".toList = .ok [] :=
  bin_candidates id "curl.exe".toList
    [.string "a.exe".toList,
      .array [.string "b.exe".toList, .string "b-alias.exe".toList, .string "--flag".toList]]
    (fun e he => by
      simp only [List.mem_cons, List.mem_singleton, List.not_mem_nil, or_false] at he
      rcases he with rfl | rfl
      · exact True.intro
      · refine ⟨by decide, fun x hx => ?_⟩
        simp only [List.mem_cons, List.mem_singleton, List.not_mem_nil, or_false] at hx
        rcases hx with rfl | rfl | rfl <;> rfl)

/-- C17: a returned match with a non-empty `bin` comes from a manifest of the listing
whose decoded `bin` has a candidate with that base name and with a stem (base name
without extension, in lower case) that contains the lower-cased term; a candidate whose
stem does not contain the term is passed over, as `tools\foo.exe` is for the terms `exe`
and `tools`. -/
theorem executable_match_is_sound (tbl : Char → Char) (files : List DirEntry)
    (term : GoString) (res : List Match) (hres : matchingManifests tbl files term = .ok res)
    (m : Match) (hm : m ∈ res) (hbin : m.bin ≠ []) :
    (∃ file ∈ files, file.name = m.name ++ ".json".toList ∧
      ∃ result bin bins c, file.content = .read result ∧
        Value.Get result "bin".toList = some bin ∧ decodeBin bin = .ok bins ∧ c ∈ bins ∧
        m.bin = Base c ∧ Contains (candidateStem tbl c) (ToLower tbl term) = true) ∧
    (∀ c rest, Contains (candidateStem tbl c) (ToLower tbl term) = false →
      firstMatchingBin tbl (ToLower tbl term) (c :: rest) =
        firstMatchingBin tbl (ToLower tbl term) rest) ∧
    Base "tools\\foo.exe".toList = "foo.exe".toList ∧
    firstMatchingBin tbl (ToLower tbl "exe".toList) ["tools\\foo.exe".toList] = none ∧
    firstMatchingBin tbl (ToLower tbl "tools".toList) ["tools\\foo.exe".toList] = none := by
  refine ⟨?_, ?_, rfl, rfl, rfl⟩
  · obtain ⟨collected, hscan, rfl⟩ := matchingManifests_ok hres
    have hm' : m ∈ collected := (SliceStable_perm _ _).mem_iff.mp hm
    obtain ⟨file, hfile, hstep⟩ := scanFiles_mem hscan hm'
    refine ⟨file, hfile, ?_⟩
    rcases fileStep_cases hstep with h | ⟨-, -, result, -, h⟩ |
      ⟨hj, -, result, bin, bins, b, hr, hb, hd, hf, h⟩
    · cases h
    · cases h
      exact absurd rfl hbin
    · cases h
      obtain ⟨c, hc, hbc, hcont⟩ := firstMatchingBin_some hf
      exact ⟨name_eq_of_HasSuffix hj, result, bin, bins, c, hr, hb, hd, hc, hbc, hcont⟩
  · intro c rest hc
    have hc' : Contains (ToLower tbl (TrimSuffix (Base c) (Ext (Base c)))) (ToLower tbl term) =
        false := hc
    simp only [firstMatchingBin, hc', Bool.false_eq_true, if_false]

theorem executable_match_is_sound_witness :
    (∃ file ∈ [altToolFile], file.name = "tool".toList ++ ".json".toList ∧
      ∃ result bin bins c, file.content = .read result ∧
        Value.Get result "bin".toList = some bin ∧ decodeBin bin = .ok bins ∧ c ∈ bins ∧
        "alt.exe".toList = Base c ∧
        Contains (candidateStem id c) (ToLower id "alt".toList) = true) ∧
    (∀ c rest, Contains (candidateStem id c) (ToLower id "alt".toList) = false →
      firstMatchingBin id (ToLower id "alt".toList) (c :: rest) =
        firstMatchingBin id (ToLower id "alt".toList) rest) ∧
    Base "tools\\foo.exe".toList = "foo.exe".toList ∧
    firstMatchingBin id (ToLower id "exe".toList) ["tools\\foo.exe".toList] = none ∧
    firstMatchingBin id (ToLower id "tools".toList) ["tools\\foo.exe".toList] = none :=
  executable_match_is_sound id [altToolFile] "alt".toList
    [⟨"tool".toList, [], "alt.exe".toList⟩] rfl ⟨"tool".toList, [], "alt.exe".toList⟩
    (List.mem_singleton.mpr rfl) (by decide)

/-- C18: with the empty term and every `.json` entry readable, `matchingManifests`
returns exactly the name matches of the `.json` files, one each and each with an empty
`bin`, whatever their `bin` members are. -/
theorem empty_term_matches_every_manifest (tbl : Char → Char) (files : List DirEntry)
    (hread : ∀ f ∈ files, HasSuffix f.name ".json".toList = true → f.content ≠ .unreadable) :
    ∃ res, matchingManifests tbl files [] = .ok res ∧
      res.Perm ((files.filter (fun f => HasSuffix f.name ".json".toList)).map nameMatch) ∧
      res.length = (files.filter (fun f => HasSuffix f.name ".json".toList)).length ∧
      ∀ m ∈ res, m.bin = [] := by
  have hscan := scanFiles_empty_term tbl files [] hread
  rw [List.nil_append] at hscan
  have hperm := SliceStable_perm (lessByName tbl)
    ((files.filter (fun f => HasSuffix f.name ".json".toList)).map nameMatch)
  refine ⟨_, ?_, hperm, ?_, ?_⟩
  · simp only [matchingManifests, collectMatches]
    have hl : ToLower tbl [] = [] := rfl
    rw [hl, hscan]
  · rw [hperm.length_eq, List.length_map]
  · intro m hm
    obtain ⟨f, -, rfl⟩ := List.mem_map.mp (hperm.mem_iff.mp hm)
    rfl

theorem empty_term_matches_every_manifest_witness :
    ∃ res, matchingManifests id numberBinBucket [] = .ok res ∧
      res.Perm ((numberBinBucket.filter
        (fun f => HasSuffix f.name ".json".toList)).map nameMatch) ∧
      res.length =
        (numberBinBucket.filter (fun f => HasSuffix f.name ".json".toList)).length ∧
      ∀ m ∈ res, m.bin = [] :=
  empty_term_matches_every_manifest id numberBinBucket (fun f hf _ hc => by
    simp only [numberBinBucket, List.mem_cons, List.mem_singleton, List.not_mem_nil,
      or_false] at hf
    rcases hf with rfl | rfl <;> cases hc)

/-- C19: the base name of a path is never empty; a match that the loop body produces has
an empty `bin` exactly when it was found in the name branch; and the line written for it
carries the annotation exactly when it was found in the executable branch. -/
theorem annotation_iff_executable_match (tbl : Char → Char) (term : GoString)
    (file : DirEntry) (m : Match) (h : scanFiles tbl term [file] [] = .ok [m]) :
    (∀ path, Base path ≠ []) ∧
    (m.bin = [] ↔ Contains (ToLower tbl file.name) term = true) ∧
    writeMatches [m] [] =
      "    ".toList ++ m.name ++ " (".toList ++ m.version ++ ")".toList ++
        (if Contains (ToLower tbl file.name) term = true then []
          else " --> includes '".toList ++ m.bin ++ "'".toList) ++ "\n".toList := by
  have hiff : m.bin = [] ↔ Contains (ToLower tbl file.name) term = true := by
    rcases fileStep_cases (show fileStep tbl term file = .ok [m] from h) with
      h0 | ⟨-, hn, result, -, h1⟩ | ⟨-, hn, result, bin, bins, b, -, -, -, hf, h1⟩
    · cases h0
    · cases h1
      exact ⟨fun _ => hn, fun _ => rfl⟩
    · cases h1
      obtain ⟨c, -, hbc, -⟩ := firstMatchingBin_some hf
      constructor
      · intro hb
        exact absurd (hbc ▸ hb) (Base_ne_nil c)
      · intro hc
        rw [hn] at hc
        cases hc
  refine ⟨Base_ne_nil, hiff, ?_⟩
  rw [writeMatches_eq]
  simp only [List.nil_append, List.map_cons, List.map_nil, List.flatten_cons,
    List.flatten_nil, List.append_nil, matchLine]
  by_cases hb : m.bin = []
  · rw [if_neg (not_not.mpr hb), if_pos (hiff.mp hb)]
  · rw [if_pos hb, if_neg (fun hc => hb (hiff.mpr hc))]

theorem annotation_iff_executable_match_witness :
    (∀ path, Base path ≠ []) ∧
    ("alt.exe".toList = [] ↔ Contains (ToLower id altToolFile.name) "alt".toList = true) ∧
    writeMatches [⟨"tool".toList, [], "alt.exe".toList⟩] [] =
      "    ".toList ++ "tool".toList ++ " (".toList ++ [] ++ ")".toList ++
        (if Contains (ToLower id altToolFile.name) "alt".toList = true then []
          else " --> includes '".toList ++ "alt.exe".toList ++ "'".toList) ++ "\n".toList :=
  annotation_iff_executable_match id "alt".toList altToolFile
    ⟨"tool".toList, [], "alt.exe".toList⟩ rfl

end ScoopSearch
